import Mathlib

/-!
Verification of the projective-space threshold secret-sharing engine
(`t_threshold_encrypt.py` / `t_threshold_decrypt.py`).

Modeling conventions:
* A sage projective point of `ProjectiveSpace(d, GF(q))` is represented by its
  canonical coordinate vector (`Vec q (d+1)`), normalized so that the last
  nonzero coordinate is `1`; sage point equality (proportionality) then becomes
  literal equality of the canonical vectors.
* The field `GF(order)` is the type parameter `ZMod q`; verified runs always
  instantiate `q` with the order the programs derive from their input.
* Python's ambient randomness (`random.randint`, `random.choice`,
  `random.shuffle`) is passed in as explicit oracle arguments; the unbounded
  retry recursion of `get_secret_splitter` consumes one oracle entry per
  attempt and reports `fuelOut` when the oracle is exhausted.
* Python exceptions are modeled as `exn` results carrying the Python
  exception class name; `print`-based error reports are `msg` results carrying
  the printed text.
* The hyperplane dictionary built by `all_hyperplaines` is a store
  (`List (List (Vec q n))`), and the mapping built by
  `find_hyperplanes_for_secret_line` holds store indices: this models the fact
  that the Python dict values are references to the shared list objects, so
  that the in-place mutations done by `get_secret_splitter` are observable
  through every alias.
-/

set_option maxHeartbeats 1000000
set_option maxRecDepth 100000

namespace PyThresh

/-- Coordinate vectors of length `n` over `GF(q)` (modeled as `ZMod q`).  A sage
projective point is represented by its canonical coordinate vector. -/
abbrev Vec (q n : ℕ) := Fin n → ZMod q

/-- The elements of `GF(q)` in sage's iteration order `0, 1, ..., q-1`
(`for zeta in space_order`). -/
def fieldElems (q : ℕ) : List (ZMod q) := (List.range q).map (fun k : ℕ => (k : ZMod q))

/-- Auxiliary enumeration of all coordinate vectors of length `m` over `GF(q)`. -/
def vecList (q : ℕ) : (m : ℕ) → List (Vec q m)
  | 0 => [fun i => i.elim0]
  | m + 1 => (fieldElems q).flatMap (fun c => (vecList q m).map (fun v => Fin.cons c v))

/-- The support of a coordinate vector (positions of nonzero coordinates). -/
def supp {q n : ℕ} (v : Vec q n) : Finset (Fin n) := Finset.univ.filter (fun i => v i ≠ 0)

/-- The multiplicative inverse in `GF(q)`, computed by exhaustive search so
that it evaluates by kernel reduction; `zinv_eq_inv` below identifies it with
the field inverse when `q` is prime. -/
def zinv {q : ℕ} (a : ZMod q) : ZMod q :=
  ((((List.range q).find? (fun k : ℕ => decide (a * (k : ZMod q) = 1))).getD 0 : ℕ) : ZMod q)

/-- Sage's canonical form of a projective coordinate vector
(`projective_space(coords)`): scale by the inverse of the last nonzero
coordinate.  On the zero vector (which sage rejects with an exception, and
which never arises on the verified paths) it acts as the identity. -/
def normalize {q n : ℕ} (v : Vec q n) : Vec q n :=
  if h : (supp v).Nonempty then zinv (v ((supp v).max' h)) • v else v

/-- `sage.is_prime` on a natural number, as executable trial division;
`sage_is_prime_iff` below identifies it with primality. -/
def sage_is_prime (p : ℕ) : Bool :=
  decide (2 ≤ p) && (List.range (p - 2)).all (fun k : ℕ => decide (p % (k + 2) ≠ 0))

/-- `projective_space.rational_points()`: every point of the projective space,
i.e. every canonical nonzero vector, listed once. -/
def allPoints (q n : ℕ) : List (Vec q n) :=
  (vecList q n).filter (fun v => decide (v ≠ 0 ∧ normalize v = v))

/-- Result of a Python call that may return normally, raise an exception (with
the given exception class name), or — in the model only — run out of the
explicit randomness oracle that drives an unbounded retry recursion. -/
inductive SpRes (α : Type) where
  | ok (a : α)
  | exn (e : String)
  | fuelOut
deriving DecidableEq

/-- The observable outcome of `t_threshold_decrypt`: an error report printed
with `print` (`msg`), a Python exception (`exn`), or the final
`decrypted secret` — the set of intersection points. -/
inductive DecOut (q n : ℕ) where
  | msg (s : String)
  | exn (s : String)
  | secretSet (fs : Finset (Vec q n))
deriving DecidableEq

/-- The observable outcome of `t_threshold_encrypt`: an error report (`msg`),
a Python exception (`exn`), oracle exhaustion of the retry loop (`fuelOut`),
or the printed triple (secret, secret line, splitters). -/
inductive EncOut (q n : ℕ) where
  | msg (s : String)
  | exn (s : String)
  | fuelOut
  | ok (secret : Vec q n) (secret_line : List (Vec q n)) (splitters : List (Vec q n))
deriving DecidableEq

/-- `np.dot` of two coordinate vectors (exact `GF(q)` arithmetic). -/
def dot {q n : ℕ} (u v : Vec q n) : ZMod q := ∑ i, u i * v i

/-- `points_on_line(point1, point2, projective_space)` (identical in both
source files): for every `(zeta, alpha) ≠ (0, 0)` in `GF(q) × GF(q)` form
`zeta•p1 + alpha•p2`, canonicalize it, and collect the distinct results in
order of first appearance. -/
def points_on_line {q n : ℕ} (point1 point2 : Vec q n) : List (Vec q n) :=
  (fieldElems q).foldl (fun acc zeta =>
    (fieldElems q).foldl (fun acc2 alpha =>
      if alpha ≠ 0 ∨ zeta ≠ 0 then
        (let np := normalize (zeta • point1 + alpha • point2)
         if np ∈ acc2 then acc2 else acc2 ++ [np])
      else acc2) acc) []

/-- `all_hyperplaines(points)`: the dict `{i : hyperplane_list}` with keys in
insertion order, modeled as the list of hyperplane lists (the dual hyperplane
of each point, in the order of `points`).  Entry `i` of the store corresponds
to dict key `i + 1`. -/
def all_hyperplaines {q n : ℕ} (points : List (Vec q n)) : List (List (Vec q n)) :=
  points.map (fun point1 => points.filter (fun point2 => decide (dot point1 point2 = 0)))

/-- `point_in_plane(point, plane)`. -/
def point_in_plane {q n : ℕ} (point : Vec q n) (plane : List (Vec q n)) : Prop :=
  point ∈ plane

instance {q n : ℕ} (point : Vec q n) (plane : List (Vec q n)) :
    Decidable (point_in_plane point plane) :=
  inferInstanceAs (Decidable (point ∈ plane))

/-- `line_in_plane(line, plane)`. -/
def line_in_plane {q n : ℕ} (line plane : List (Vec q n)) : Prop :=
  ∀ point ∈ line, point_in_plane point plane

instance {q n : ℕ} (line plane : List (Vec q n)) : Decidable (line_in_plane line plane) :=
  inferInstanceAs (Decidable (∀ point ∈ line, point_in_plane point plane))

/-- `find_hyperplanes_for_secret_line(hyperplanes, secret_line)`: the dict
mapping each point of the secret line to the list of hyperplanes that contain
it but do not contain the whole line.  The dict values hold references to the
shared hyperplane list objects, modeled as indices into the store returned by
`all_hyperplaines`; keys absent from the Python dict are mapped to `[]`. -/
def find_hyperplanes_for_secret_line {q n : ℕ} (hyperplanes : List (List (Vec q n)))
    (secret_line : List (Vec q n)) : Vec q n → List ℕ :=
  fun point =>
    if point ∈ secret_line then
      (List.range hyperplanes.length).filter (fun i =>
        decide (point_in_plane point (hyperplanes.getD i []) ∧
          ¬ line_in_plane secret_line (hyperplanes.getD i [])))
    else []

/-- The effect of `for point3 in new_points: if point3 not in acc: acc.append(point3)`:
append the members of `ps` not already present, keeping first-appearance order. -/
def addNew {q n : ℕ} (acc ps : List (Vec q n)) : List (Vec q n) :=
  ps.foldl (fun a p => if p ∈ a then a else a ++ [p]) acc

/-- One pass of the closure loop in `reconstruct_hyperplane`: for every ordered
pair of distinct points of `l`, add all new points of the line through them. -/
def passOnce {q n : ℕ} (l : List (Vec q n)) : List (Vec q n) :=
  l.foldl (fun acc point1 =>
    l.foldl (fun acc2 point2 =>
      if point1 ≠ point2 then addNew acc2 (points_on_line point1 point2) else acc2) acc) l

/-- The recursion of `reconstruct_hyperplane`, with explicit fuel: run a pass;
if nothing was added return the list, otherwise recurse on the grown list.
(The Python recursion is unbounded; `reconstruct_hyperplane` below supplies
fuel proven sufficient to reach the fixed point, so the `0` case is never
taken.) -/
def reconstructFuel {q n : ℕ} : ℕ → List (Vec q n) → List (Vec q n)
  | 0, l => l
  | fuel + 1, l => (let l2 := passOnce l; if l2 = l then l else reconstructFuel fuel l2)

/-- `reconstruct_hyperplane(points, projective_space)`: the span-closure of the
input point list (the Python function returns the dict `{1 : list}`; we return
the list).  `q ^ n + 1` units of fuel always suffice: the working list grows
strictly at every non-final step and is bounded by the `q ^ n` vectors of the
ambient space. -/
def reconstruct_hyperplane {q n : ℕ} (points : List (Vec q n)) : List (Vec q n) :=
  reconstructFuel (q ^ n + 1) points

/-- `intersect_hyperplane_w_secret_line(hyperplane_intersect_secret, secret_line)`:
the Python set of points of the reconstructed hyperplane that lie on the
secret line. -/
def intersect_hyperplane_w_secret_line {q n : ℕ} (hyperplane secret_line : List (Vec q n)) :
    Finset (Vec q n) :=
  (hyperplane.filter (fun point => decide (point ∈ secret_line))).toFinset

/-- The row span of a list of vectors, as a finset: every `GF(q)`-linear
combination of the rows. -/
def spanFinset {q n : ℕ} (rows : List (Vec q n)) : Finset (Vec q n) :=
  ((vecList q rows.length).map (fun c => ∑ i, c i • rows.get i)).toFinset

/-- `sage.matrix(sage.GF(order), rows).rank()`: the rank of the matrix with the
given rows over `GF(q)`.  Over a prime field the row span has exactly
`q ^ rank` elements, so the rank is recovered as `Nat.log q` of the span size
(the equivalence with `Module.finrank` of the row span is proved below). -/
def matRank {q n : ℕ} (rows : List (Vec q n)) : ℕ :=
  Nat.log q (spanFinset rows).card

/-- `is_general_position(arc, order)`: no 3×3 submatrix of rank `< 3`, i.e. no
three chosen points collinear (`itertools.combinations(arc, 3)`). -/
def is_general_position {q n : ℕ} (arc : List (Vec q n)) : Bool :=
  (arc.sublistsLen 3).all (fun three_points => decide (¬ matRank three_points < 3))

/-- `random.shuffle`: reorder a list by an oracle-supplied permutation of the
index range (an oracle value that is not such a permutation leaves the list
unchanged — itself a permutation — so the result is always a rearrangement). -/
def applyPerm {q n : ℕ} (σ : List ℕ) (l : List (Vec q n)) : List (Vec q n) :=
  if σ.Perm (List.range l.length) then σ.map (fun i => l.getD i 0) else l

/-- `find_largest_general_position_subset(secret_splitters, secret, order)`:
shuffle the pool in place, seed the arc with `[secret, shuffled[0]]`, greedily
add every pool point that keeps the arc in general position, then remove the
secret.  Returns the arc together with the shuffled pool (the caller writes
the latter back into the store, modeling the in-place shuffle); accessing
`shuffled[0]` of an empty pool raises `IndexError`. -/
def find_largest_general_position_subset {q n : ℕ} (secret_splitters : List (Vec q n))
    (secret : Vec q n) (σ : List ℕ) : SpRes (List (Vec q n)) × List (Vec q n) :=
  let shuffled := applyPerm σ secret_splitters
  match shuffled with
  | [] => (.exn "IndexError", shuffled)
  | s0 :: _ =>
    (.ok ((shuffled.foldl (fun arc point =>
        if is_general_position (arc ++ [point]) then arc ++ [point] else arc)
      [secret, s0]).erase secret), shuffled)

/-- `get_secret_splitter(hyperplaines_cut_secret_line, secret, dimension, order)`:
pick a random candidate hyperplane for the secret, remove the secret from it
(in place), return it directly when `dimension == 2`, otherwise search for a
general-position subset and accept it only when its rank reaches `dimension`,
retrying the whole selection otherwise.  The store of hyperplane lists is
threaded explicitly to model the in-place mutations (`remove`, `shuffle`) that
are visible through the shared references; each retry consumes one oracle
entry `(randint value, shuffle permutation)`.  An empty candidate list makes
`random.randint(0, -1)` raise `ValueError`. -/
def get_secret_splitter {q n : ℕ} (hyperplanes : List (List (Vec q n)))
    (hyperplaines_cut_secret_line : Vec q n → List ℕ) (secret : Vec q n) (dimension : ℕ) :
    List (ℕ × List ℕ) → SpRes (List (Vec q n)) × List (List (Vec q n))
  | [] =>
    if (hyperplaines_cut_secret_line secret).isEmpty then (.exn "ValueError", hyperplanes)
    else (.fuelOut, hyperplanes)
  | (ri, σ) :: rest =>
    if (hyperplaines_cut_secret_line secret).isEmpty then (.exn "ValueError", hyperplanes)
    else
      let refs := hyperplaines_cut_secret_line secret
      let idx := refs.getD (ri % refs.length) 0
      let hp2 := (hyperplanes.getD idx []).erase secret
      if dimension = 2 then (.ok hp2, hyperplanes.set idx hp2)
      else
        match find_largest_general_position_subset hp2 secret σ with
        | (.ok subset, shuffled) =>
          if dimension ≤ matRank subset then (.ok subset, hyperplanes.set idx shuffled)
          else
            get_secret_splitter (hyperplanes.set idx shuffled) hyperplaines_cut_secret_line
              secret dimension rest
        | (.exn e, shuffled) => (.exn e, hyperplanes.set idx shuffled)
        | (.fuelOut, shuffled) => (.fuelOut, hyperplanes.set idx shuffled)

/-- `find_point_for_secret_line(secret, points)`: a random point sharing at
least one coordinate with the secret (`random.choice` modeled by the oracle
index `r2`), or `None` when no point qualifies. -/
def find_point_for_secret_line {q n : ℕ} (secret : Vec q n) (points : List (Vec q n))
    (r2 : ℕ) : Option (Vec q n) :=
  let valid_points := points.filter (fun point =>
    decide (point ≠ secret ∧ ∃ i, point i = secret i))
  if valid_points.isEmpty then none
  else some (valid_points.getD (r2 % valid_points.length) 0)

/-- The message printed by `t_threshold_encrypt` for invalid dimension/order. -/
def encMsgDim : String :=
  "Sorry, but dimension,\n              order and the number of secrets have to exceed 1."

/-- The message printed for a non-prime order (both programs). -/
def msgPrime : String := "Sorry, q must be a prime number."

/-- The message printed by `t_threshold_decrypt` for too-small parameters. -/
def decMsgDim : String :=
  "Sorry, but the dimension of the space, the order of the space\n              and number of secrets have to exceed 1."

/-- The message printed by `t_threshold_decrypt` when fewer shares than
dimensions are supplied. -/
def decMsgCount : String :=
  "Sorry, but number of secrets must be greater or equal to the\n              number of dimensions"

/-- `t_threshold_encrypt(dimension, order)`: validate the parameters, draw the
secret and a second point, build the secret line, the hyperplane store and the
candidate mapping, and run the splitter selection.  `r1`, `r2` and `attempts`
are the explicit randomness oracle. -/
def t_threshold_encrypt (dimension order : ℕ) (r1 r2 : ℕ) (attempts : List (ℕ × List ℕ)) :
    EncOut order (dimension + 1) :=
  if order ≤ 1 ∨ dimension ≤ 1 then .msg encMsgDim
  else if ¬ sage_is_prime order then .msg msgPrime
  else
    let points := allPoints order (dimension + 1)
    let secret := points.getD (r1 % points.length) 0
    match find_point_for_secret_line secret points r2 with
    | none => .exn "TypeError"
    | some second_point =>
      let secret_line := points_on_line secret second_point
      let hyperplanes := all_hyperplaines points
      let cut := find_hyperplanes_for_secret_line hyperplanes secret_line
      match get_secret_splitter hyperplanes cut secret dimension attempts with
      | (.ok spl, _) => .ok secret secret_line spl
      | (.exn e, _) => .exn e
      | (.fuelOut, _) => .fuelOut

/-- `t_threshold_decrypt(splitted_secrets, secret_line)`: derive order and
dimension from the inputs, validate them, canonicalize the input points,
reconstruct the hyperplane spanned by the shares and print its intersection
with the secret line as the decrypted secret.  Accessing `secret_line[0]` of
an empty line raises `IndexError`; a zero input vector makes the
`projective_space(point)` conversion raise `ValueError`. -/
def t_threshold_decrypt {q n : ℕ} (splitted_secrets secret_line : List (Vec q n)) :
    DecOut q n :=
  if secret_line.isEmpty then .exn "IndexError"
  else
    let order := secret_line.length - 1
    let dimension := n - 1
    let n_secrets := splitted_secrets.length
    if order ≤ 1 ∨ dimension ≤ 1 ∨ n_secrets ≤ 1 then .msg decMsgDim
    else if n_secrets < dimension then .msg decMsgCount
    else if ¬ sage_is_prime order then .msg msgPrime
    else if splitted_secrets.any (fun v => decide (v = 0)) ∨
        secret_line.any (fun v => decide (v = 0)) then .exn "ValueError"
    else
      .secretSet (intersect_hyperplane_w_secret_line
        (reconstruct_hyperplane (splitted_secrets.map normalize))
        (secret_line.map normalize))

/-! ### Properties of the canonical form -/

lemma sage_is_prime_iff (p : ℕ) : sage_is_prime p = true ↔ p.Prime := by
  rw [Nat.prime_def_lt]
  simp only [sage_is_prime, Bool.and_eq_true, decide_eq_true_eq, List.all_eq_true,
    List.mem_range]
  constructor
  · rintro ⟨h2, hall⟩
    refine ⟨h2, fun m hm hdvd => ?_⟩
    by_contra hm1
    rcases Nat.lt_or_ge m 2 with hlt | hge
    · interval_cases m
      · rw [Nat.zero_dvd] at hdvd; omega
      · exact hm1 rfl
    · have hth := hall (m - 2) (by omega)
      have hm2 : m - 2 + 2 = m := by omega
      rw [hm2] at hth
      exact hth (Nat.dvd_iff_mod_eq_zero.mp hdvd)
  · rintro ⟨h2, hall⟩
    refine ⟨h2, fun k hk => ?_⟩
    intro hmod
    have hdvd : (k + 2) ∣ p := Nat.dvd_iff_mod_eq_zero.mpr hmod
    have := hall (k + 2) (by omega) hdvd
    omega

lemma zinv_eq_inv {q : ℕ} [Fact q.Prime] (a : ZMod q) : zinv a = a⁻¹ := by
  haveI : NeZero q := ⟨(‹Fact q.Prime›.out).pos.ne'⟩
  by_cases ha : a = 0
  · subst ha
    have hnone : (List.range q).find?
        (fun k : ℕ => decide ((0 : ZMod q) * (k : ZMod q) = 1)) = none := by
      rw [List.find?_eq_none]
      intro k _
      simp only [zero_mul, decide_eq_true_eq]
      exact fun h => zero_ne_one h
    rw [zinv, hnone]
    simp
  · have hval : ((a⁻¹).val : ZMod q) = a⁻¹ := ZMod.natCast_rightInverse a⁻¹
    have hsome : ((List.range q).find?
        (fun k : ℕ => decide (a * (k : ZMod q) = 1))).isSome := by
      by_contra hc
      rw [Option.not_isSome_iff_eq_none, List.find?_eq_none] at hc
      have hcontr := hc (a⁻¹).val (List.mem_range.mpr (ZMod.val_lt a⁻¹))
      rw [hval] at hcontr
      simp only [decide_eq_true_eq] at hcontr
      exact hcontr (mul_inv_cancel₀ ha)
    obtain ⟨k, hk⟩ := Option.isSome_iff_exists.mp hsome
    have hpk := List.find?_some hk
    simp only [decide_eq_true_eq] at hpk
    rw [zinv, hk, Option.getD_some]
    exact (inv_eq_of_mul_eq_one_right hpk).symm

lemma mem_supp_iff {q n : ℕ} {v : Vec q n} {i : Fin n} : i ∈ supp v ↔ v i ≠ 0 := by
  simp [supp]

lemma supp_nonempty_of_ne {q n : ℕ} {v : Vec q n} (hv : v ≠ 0) : (supp v).Nonempty := by
  by_contra h
  rw [Finset.not_nonempty_iff_eq_empty] at h
  refine hv (funext fun i => ?_)
  by_contra hi
  have : i ∈ supp v := mem_supp_iff.mpr hi
  simp [h] at this

lemma normalize_of_eq_zero {q n : ℕ} {v : Vec q n} (hv : v = 0) : normalize v = v := by
  have : ¬ (supp v).Nonempty := by
    rw [Finset.nonempty_iff_ne_empty]
    intro h
    obtain ⟨i, hi⟩ := Finset.nonempty_iff_ne_empty.mpr h
    exact (mem_supp_iff.mp hi) (by simp [hv])
  rw [normalize, dif_neg this]

lemma normalize_eq_smul {q n : ℕ} [Fact q.Prime] {v : Vec q n} (hv : v ≠ 0) :
    ∃ c : ZMod q, c ≠ 0 ∧ normalize v = c • v := by
  have hne := supp_nonempty_of_ne hv
  have hvm : v ((supp v).max' hne) ≠ 0 :=
    mem_supp_iff.mp (Finset.max'_mem (supp v) hne)
  rw [normalize, dif_pos hne, zinv_eq_inv]
  exact ⟨_, inv_ne_zero hvm, rfl⟩

lemma normalize_ne_zero {q n : ℕ} [Fact q.Prime] {v : Vec q n} (hv : v ≠ 0) :
    normalize v ≠ 0 := by
  obtain ⟨c, hc, hcv⟩ := normalize_eq_smul hv
  rw [hcv]
  exact smul_ne_zero hc hv

lemma exists_smul_normalize {q n : ℕ} [Fact q.Prime] {v : Vec q n} (hv : v ≠ 0) :
    ∃ c : ZMod q, c ≠ 0 ∧ v = c • normalize v := by
  obtain ⟨c, hc, hcv⟩ := normalize_eq_smul hv
  refine ⟨c⁻¹, inv_ne_zero hc, ?_⟩
  rw [hcv, smul_smul, inv_mul_cancel₀ hc, one_smul]

lemma supp_smul {q n : ℕ} [Fact q.Prime] {c : ZMod q} (hc : c ≠ 0) (v : Vec q n) :
    supp (c • v) = supp v := by
  ext i
  simp only [mem_supp_iff, Pi.smul_apply, smul_eq_mul]
  constructor
  · intro h h2
    exact h (by rw [h2, mul_zero])
  · intro h h2
    rcases mul_eq_zero.mp h2 with h3 | h3
    · exact hc h3
    · exact h h3

lemma normalize_smul {q n : ℕ} [Fact q.Prime] {c : ZMod q} (hc : c ≠ 0) (v : Vec q n) :
    normalize (c • v) = normalize v := by
  by_cases hv : v = 0
  · rw [hv, smul_zero]
  · have hs : supp (c • v) = supp v := supp_smul hc v
    have hne : (supp v).Nonempty := supp_nonempty_of_ne hv
    have hne2 : (supp (c • v)).Nonempty := by rw [hs]; exact hne
    rw [normalize, normalize, dif_pos hne2, dif_pos hne, zinv_eq_inv, zinv_eq_inv]
    have hmax : (supp (c • v)).max' hne2 = (supp v).max' hne := by
      congr 1
    rw [hmax, smul_smul, Pi.smul_apply, smul_eq_mul, mul_inv_rev, mul_assoc,
      inv_mul_cancel₀ hc, mul_one]

lemma normalize_normalize {q n : ℕ} [Fact q.Prime] (v : Vec q n) :
    normalize (normalize v) = normalize v := by
  by_cases hv : v = 0
  · rw [normalize_of_eq_zero hv, normalize_of_eq_zero hv]
  · obtain ⟨c, hc, hcv⟩ := normalize_eq_smul hv
    rw [hcv, normalize_smul hc, ← hcv]

lemma normalize_inj {q n : ℕ} [Fact q.Prime] {v w : Vec q n} (hv : v ≠ 0) (hw : w ≠ 0)
    (h : normalize v = normalize w) : ∃ c : ZMod q, c ≠ 0 ∧ v = c • w := by
  obtain ⟨c, hc, hcv⟩ := exists_smul_normalize hv
  obtain ⟨d, hd, hdw⟩ := normalize_eq_smul hw
  refine ⟨c * d, mul_ne_zero hc hd, ?_⟩
  rw [hcv, h, hdw, smul_smul]

/-- Two distinct canonical nonzero points are linearly independent. -/
lemma canonical_indep {q n : ℕ} [Fact q.Prime] {p1 p2 : Vec q n}
    (h1 : normalize p1 = p1) (h1z : p1 ≠ 0) (h2 : normalize p2 = p2) (h2z : p2 ≠ 0)
    (hne : p1 ≠ p2) : ∀ a b : ZMod q, a • p1 + b • p2 = 0 → a = 0 ∧ b = 0 := by
  intro a b hab
  by_cases ha : a = 0
  · subst ha
    rw [zero_smul, zero_add] at hab
    rcases smul_eq_zero.mp hab with h | h
    · exact ⟨rfl, h⟩
    · exact absurd h h2z
  · exfalso
    have hp1 : p1 = (-(a⁻¹ * b)) • p2 := by
      have : a • p1 = -(b • p2) := by
        rw [eq_neg_iff_add_eq_zero]; exact hab
      calc p1 = a⁻¹ • (a • p1) := by rw [smul_smul, inv_mul_cancel₀ ha, one_smul]
        _ = a⁻¹ • (-(b • p2)) := by rw [this]
        _ = (-(a⁻¹ * b)) • p2 := by rw [smul_neg, smul_smul, neg_smul]
    have hc : (-(a⁻¹ * b)) ≠ 0 := by
      intro h0
      rw [h0, zero_smul] at hp1
      exact h1z hp1
    have : p1 = p2 := by
      rw [← h1, ← h2, hp1, normalize_smul hc]
    exact hne this

lemma combo_ne_zero {q n : ℕ} [Fact q.Prime] {p1 p2 : Vec q n}
    (h1 : normalize p1 = p1) (h1z : p1 ≠ 0) (h2 : normalize p2 = p2) (h2z : p2 ≠ 0)
    (hne : p1 ≠ p2) (a b : ZMod q) (hab : ¬ (a = 0 ∧ b = 0)) : a • p1 + b • p2 ≠ 0 := by
  intro h
  exact hab (canonical_indep h1 h1z h2 h2z hne a b h)

/-! ### Properties of the enumerations -/

lemma mem_fieldElems {q : ℕ} [NeZero q] (x : ZMod q) : x ∈ fieldElems q := by
  rw [fieldElems]
  exact List.mem_map.mpr ⟨x.val, List.mem_range.mpr (ZMod.val_lt x),
    ZMod.natCast_rightInverse x⟩

lemma fieldElems_nodup {q : ℕ} : (fieldElems q).Nodup := by
  rw [fieldElems]
  refine List.Nodup.map_on ?_ (List.nodup_range q)
  intro a ha b hb hab
  rw [List.mem_range] at ha hb
  rw [← ZMod.val_cast_of_lt ha, ← ZMod.val_cast_of_lt hb, hab]

lemma mem_vecList {q : ℕ} [NeZero q] : ∀ {m : ℕ} (v : Vec q m), v ∈ vecList q m := by
  intro m
  induction m with
  | zero =>
    intro v
    rw [vecList]
    exact List.mem_singleton.mpr (funext fun i => i.elim0)
  | succ m ih =>
    intro v
    rw [vecList]
    exact List.mem_flatMap.mpr ⟨v 0, mem_fieldElems _,
      List.mem_map.mpr ⟨Fin.tail v, ih _, Fin.cons_self_tail v⟩⟩

lemma vecList_nodup {q : ℕ} : ∀ m : ℕ, (vecList q m).Nodup := by
  intro m
  induction m with
  | zero => rw [vecList]; exact List.nodup_singleton _
  | succ m ih =>
    rw [vecList, List.nodup_flatMap]
    constructor
    · intro c _
      exact ih.map (fun v w hvw => by
        have := congrArg Fin.tail hvw
        rwa [Fin.tail_cons, Fin.tail_cons] at this)
    · have hdisj : ∀ a b : ZMod q, a ≠ b →
          List.Disjoint ((vecList q m).map (fun v : Vec q m => (Fin.cons a v : Vec q (m + 1))))
            ((vecList q m).map (fun v : Vec q m => (Fin.cons b v : Vec q (m + 1)))) := by
        intro a b hab x hxa hxb
        obtain ⟨va, _, hva⟩ := List.mem_map.mp hxa
        obtain ⟨vb, _, hvb⟩ := List.mem_map.mp hxb
        refine hab ?_
        have h0 := congrFun (hva.trans hvb.symm) 0
        rwa [Fin.cons_zero, Fin.cons_zero] at h0
      exact List.Pairwise.imp (fun h => hdisj _ _ h) fieldElems_nodup

lemma mem_allPoints_iff {q n : ℕ} [NeZero q] {v : Vec q n} :
    v ∈ allPoints q n ↔ v ≠ 0 ∧ normalize v = v := by
  rw [allPoints, List.mem_filter]
  simp [mem_vecList]

lemma allPoints_nodup {q n : ℕ} : (allPoints q n).Nodup :=
  (vecList_nodup n).filter _

/-! ### A small framework for the `if x not in acc: acc.append(x)` folds

All three accumulation loops of the programs (`points_on_line`, the
`point3` loop of `reconstruct_hyperplane`, and its two enclosing loops) only
ever append elements that are not yet present.  The lemmas below characterize
such folds once and for all: the accumulator is a prefix of the result, every
appended element was new and comes from the designated candidate set of some
processed item, every candidate ends up in the result, and `Nodup` is
preserved. -/

section FoldAdd

variable {q n : ℕ} {α : Type}

lemma foldl_add_decompose (g : List (Vec q n) → α → List (Vec q n)) (S : α → Vec q n → Prop)
    (H1 : ∀ acc x, ∃ e, g acc x = acc ++ e ∧ ∀ y ∈ e, y ∉ acc ∧ S x y) :
    ∀ (l : List α) (acc : List (Vec q n)),
      ∃ e, l.foldl g acc = acc ++ e ∧ ∀ y ∈ e, y ∉ acc ∧ ∃ x ∈ l, S x y := by
  intro l
  induction l with
  | nil =>
    intro acc
    exact ⟨[], by simp, by simp⟩
  | cons a l ih =>
    intro acc
    obtain ⟨e1, he1, hy1⟩ := H1 acc a
    obtain ⟨e2, he2, hy2⟩ := ih (g acc a)
    refine ⟨e1 ++ e2, ?_, ?_⟩
    · rw [List.foldl_cons, he2, he1, List.append_assoc]
    · intro y hy
      rcases List.mem_append.mp hy with h | h
      · obtain ⟨h1, h2⟩ := hy1 y h
        exact ⟨h1, a, List.mem_cons_self a l, h2⟩
      · obtain ⟨h1, h2⟩ := hy2 y h
        rw [he1] at h1
        refine ⟨fun hc => h1 (List.mem_append_left _ hc), ?_⟩
        obtain ⟨x, hx, hSx⟩ := h2
        exact ⟨x, List.mem_cons_of_mem _ hx, hSx⟩

lemma foldl_add_mono (g : List (Vec q n) → α → List (Vec q n)) (S : α → Vec q n → Prop)
    (H1 : ∀ acc x, ∃ e, g acc x = acc ++ e ∧ ∀ y ∈ e, y ∉ acc ∧ S x y)
    (l : List α) (acc : List (Vec q n)) : ∀ y ∈ acc, y ∈ l.foldl g acc := by
  obtain ⟨e, he, -⟩ := foldl_add_decompose g S H1 l acc
  intro y hy
  rw [he]
  exact List.mem_append_left _ hy

lemma foldl_add_complete (g : List (Vec q n) → α → List (Vec q n)) (S : α → Vec q n → Prop)
    (H1 : ∀ acc x, ∃ e, g acc x = acc ++ e ∧ ∀ y ∈ e, y ∉ acc ∧ S x y)
    (H2 : ∀ acc x y, S x y → y ∈ g acc x) :
    ∀ (l : List α) (acc : List (Vec q n)) (x : α) (y : Vec q n),
      x ∈ l → S x y → y ∈ l.foldl g acc := by
  intro l
  induction l with
  | nil =>
    intro acc x y hx
    exact absurd hx (List.not_mem_nil x)
  | cons a l ih =>
    intro acc x y hx hS
    rcases List.mem_cons.mp hx with h | h
    · subst h
      rw [List.foldl_cons]
      exact foldl_add_mono g S H1 l (g acc x) y (H2 acc x y hS)
    · rw [List.foldl_cons]
      exact ih (g acc a) x y h hS

lemma foldl_add_mem (g : List (Vec q n) → α → List (Vec q n)) (S : α → Vec q n → Prop)
    (H1 : ∀ acc x, ∃ e, g acc x = acc ++ e ∧ ∀ y ∈ e, y ∉ acc ∧ S x y)
    (H2 : ∀ acc x y, S x y → y ∈ g acc x)
    (l : List α) (acc : List (Vec q n)) (y : Vec q n) :
    y ∈ l.foldl g acc ↔ y ∈ acc ∨ ∃ x ∈ l, S x y := by
  constructor
  · intro hy
    obtain ⟨e, he, hys⟩ := foldl_add_decompose g S H1 l acc
    rw [he] at hy
    rcases List.mem_append.mp hy with h | h
    · exact Or.inl h
    · exact Or.inr (hys y h).2
  · intro hy
    rcases hy with h | ⟨x, hx, hS⟩
    · exact foldl_add_mono g S H1 l acc y h
    · exact foldl_add_complete g S H1 H2 l acc x y hx hS

lemma foldl_add_nodup (g : List (Vec q n) → α → List (Vec q n))
    (H3 : ∀ acc x, acc.Nodup → (g acc x).Nodup) :
    ∀ (l : List α) (acc : List (Vec q n)), acc.Nodup → (l.foldl g acc).Nodup := by
  intro l
  induction l with
  | nil => intro acc h; exact h
  | cons a l ih =>
    intro acc h
    rw [List.foldl_cons]
    exact ih (g acc a) (H3 acc a h)

end FoldAdd

/-! ### The single dedupe-append step -/

lemma step0_decompose {q n : ℕ} (a : List (Vec q n)) (p : Vec q n) :
    ∃ e, (if p ∈ a then a else a ++ [p]) = a ++ e ∧ ∀ y ∈ e, y ∉ a ∧ y = p := by
  by_cases h : p ∈ a
  · exact ⟨[], by simp [h], by simp⟩
  · refine ⟨[p], by simp [h], ?_⟩
    intro y hy
    rw [List.mem_singleton] at hy
    exact ⟨hy ▸ h, hy⟩

lemma step0_mem {q n : ℕ} (a : List (Vec q n)) (p : Vec q n) :
    p ∈ (if p ∈ a then a else a ++ [p]) := by
  by_cases h : p ∈ a
  · simp [h]
  · simp [h]

lemma step0_nodup {q n : ℕ} (a : List (Vec q n)) (p : Vec q n) (h : a.Nodup) :
    (if p ∈ a then a else a ++ [p]).Nodup := by
  by_cases hp : p ∈ a
  · simpa [hp]
  · simp [hp, List.nodup_append, h]

/-! ### Properties of `addNew` -/

lemma addNew_decompose {q n : ℕ} (acc ps : List (Vec q n)) :
    ∃ e, addNew acc ps = acc ++ e ∧ ∀ y ∈ e, y ∉ acc ∧ y ∈ ps := by
  have := foldl_add_decompose (fun a p => if p ∈ a then a else a ++ [p])
    (fun (p : Vec q n) y => y = p)
    (fun acc x => step0_decompose acc x) ps acc
  obtain ⟨e, he, hy⟩ := this
  refine ⟨e, he, ?_⟩
  intro y hmem
  obtain ⟨h1, x, hx, h2⟩ := hy y hmem
  exact ⟨h1, h2 ▸ hx⟩

lemma mem_addNew {q n : ℕ} (acc ps : List (Vec q n)) (y : Vec q n) :
    y ∈ addNew acc ps ↔ y ∈ acc ∨ y ∈ ps := by
  have := foldl_add_mem (fun a p => if p ∈ a then a else a ++ [p])
    (fun (p : Vec q n) y => y = p)
    (fun acc x => step0_decompose acc x)
    (fun acc x y hS => hS ▸ step0_mem acc x) ps acc y
  rw [addNew, this]
  constructor
  · rintro (h | ⟨x, hx, rfl⟩)
    · exact Or.inl h
    · exact Or.inr hx
  · rintro (h | h)
    · exact Or.inl h
    · exact Or.inr ⟨y, h, rfl⟩

lemma addNew_nodup {q n : ℕ} (acc ps : List (Vec q n)) (h : acc.Nodup) :
    (addNew acc ps).Nodup :=
  foldl_add_nodup (fun a p => if p ∈ a then a else a ++ [p])
    (fun a p ha => step0_nodup a p ha) ps acc h

/-! ### Properties of `points_on_line` -/

lemma lineStep_decompose {q n : ℕ} (point1 point2 : Vec q n) (zeta : ZMod q) :
    ∀ (acc2 : List (Vec q n)) (alpha : ZMod q),
      ∃ e, (if alpha ≠ 0 ∨ zeta ≠ 0 then
          (let np := normalize (zeta • point1 + alpha • point2)
           if np ∈ acc2 then acc2 else acc2 ++ [np])
        else acc2) = acc2 ++ e ∧
        ∀ y ∈ e, y ∉ acc2 ∧
          ((alpha ≠ 0 ∨ zeta ≠ 0) ∧ y = normalize (zeta • point1 + alpha • point2)) := by
  intro acc2 alpha
  by_cases hc : alpha ≠ 0 ∨ zeta ≠ 0
  · rw [if_pos hc]
    obtain ⟨e, he, hy⟩ := step0_decompose acc2 (normalize (zeta • point1 + alpha • point2))
    exact ⟨e, he, fun y hmem => ⟨(hy y hmem).1, hc, (hy y hmem).2⟩⟩
  · rw [if_neg hc]
    exact ⟨[], by simp, by simp⟩

lemma lineStep_mem {q n : ℕ} (point1 point2 : Vec q n) (zeta : ZMod q) :
    ∀ (acc2 : List (Vec q n)) (alpha : ZMod q) (y : Vec q n),
      ((alpha ≠ 0 ∨ zeta ≠ 0) ∧ y = normalize (zeta • point1 + alpha • point2)) →
      y ∈ (if alpha ≠ 0 ∨ zeta ≠ 0 then
          (let np := normalize (zeta • point1 + alpha • point2)
           if np ∈ acc2 then acc2 else acc2 ++ [np])
        else acc2) := by
  intro acc2 alpha y hS
  rw [if_pos hS.1]
  exact hS.2 ▸ step0_mem acc2 (normalize (zeta • point1 + alpha • point2))

lemma points_on_line_outer_decompose {q n : ℕ} (point1 point2 : Vec q n) :
    ∀ (acc : List (Vec q n)) (zeta : ZMod q),
      ∃ e, ((fieldElems q).foldl (fun acc2 alpha =>
          if alpha ≠ 0 ∨ zeta ≠ 0 then
            (let np := normalize (zeta • point1 + alpha • point2)
             if np ∈ acc2 then acc2 else acc2 ++ [np])
          else acc2) acc) = acc ++ e ∧
        ∀ y ∈ e, y ∉ acc ∧ ∃ a : ZMod q, a ∈ fieldElems q ∧
          (a ≠ 0 ∨ zeta ≠ 0) ∧ y = normalize (zeta • point1 + a • point2) := by
  intro acc zeta
  obtain ⟨e, he, hy⟩ := foldl_add_decompose _
    (fun alpha y => (alpha ≠ 0 ∨ zeta ≠ 0) ∧ y = normalize (zeta • point1 + alpha • point2))
    (lineStep_decompose point1 point2 zeta) (fieldElems q) acc
  refine ⟨e, he, fun y hmem => ⟨(hy y hmem).1, ?_⟩⟩
  obtain ⟨a, ha, hSa⟩ := (hy y hmem).2
  exact ⟨a, ha, hSa⟩

lemma points_on_line_outer_mem {q n : ℕ} (point1 point2 : Vec q n)
    (acc : List (Vec q n)) (zeta : ZMod q) (y : Vec q n)
    (hS : ∃ a : ZMod q, a ∈ fieldElems q ∧
      (a ≠ 0 ∨ zeta ≠ 0) ∧ y = normalize (zeta • point1 + a • point2)) :
    y ∈ (fieldElems q).foldl (fun acc2 alpha =>
        if alpha ≠ 0 ∨ zeta ≠ 0 then
          (let np := normalize (zeta • point1 + alpha • point2)
           if np ∈ acc2 then acc2 else acc2 ++ [np])
        else acc2) acc := by
  obtain ⟨a, ha, hSa⟩ := hS
  exact foldl_add_complete _
    (fun alpha y => (alpha ≠ 0 ∨ zeta ≠ 0) ∧ y = normalize (zeta • point1 + alpha • point2))
    (lineStep_decompose point1 point2 zeta) (lineStep_mem point1 point2 zeta)
    (fieldElems q) acc a y ha hSa

lemma mem_points_on_line {q n : ℕ} [NeZero q] (point1 point2 : Vec q n) (y : Vec q n) :
    y ∈ points_on_line point1 point2 ↔
      ∃ z a : ZMod q, (a ≠ 0 ∨ z ≠ 0) ∧ y = normalize (z • point1 + a • point2) := by
  rw [points_on_line]
  rw [foldl_add_mem _
    (fun zeta y => ∃ a : ZMod q, a ∈ fieldElems q ∧
      (a ≠ 0 ∨ zeta ≠ 0) ∧ y = normalize (zeta • point1 + a • point2))
    (points_on_line_outer_decompose point1 point2)
    (fun acc zeta y hS => points_on_line_outer_mem point1 point2 acc zeta y hS)
    (fieldElems q) [] y]
  constructor
  · rintro (h | ⟨z, _, a, _, hc, hy⟩)
    · exact absurd h (List.not_mem_nil y)
    · exact ⟨z, a, hc, hy⟩
  · rintro ⟨z, a, hc, hy⟩
    exact Or.inr ⟨z, mem_fieldElems z, a, mem_fieldElems a, hc, hy⟩

lemma points_on_line_nodup {q n : ℕ} (point1 point2 : Vec q n) :
    (points_on_line point1 point2).Nodup := by
  rw [points_on_line]
  refine foldl_add_nodup _ ?_ (fieldElems q) [] (List.nodup_nil)
  intro acc zeta hacc
  refine foldl_add_nodup _ ?_ (fieldElems q) acc hacc
  intro acc2 alpha h2
  by_cases hc : alpha ≠ 0 ∨ zeta ≠ 0
  · rw [if_pos hc]
    exact step0_nodup acc2 _ h2
  · rw [if_neg hc]
    exact h2

/-! ### Properties of `passOnce` and the closure recursion -/

lemma passStep_decompose {q n : ℕ} (point1 : Vec q n) :
    ∀ (acc2 : List (Vec q n)) (point2 : Vec q n),
      ∃ e, (if point1 ≠ point2 then addNew acc2 (points_on_line point1 point2) else acc2) =
          acc2 ++ e ∧
        ∀ y ∈ e, y ∉ acc2 ∧ (point1 ≠ point2 ∧ y ∈ points_on_line point1 point2) := by
  intro acc2 point2
  by_cases hc : point1 ≠ point2
  · rw [if_pos hc]
    obtain ⟨e, he, hy⟩ := addNew_decompose acc2 (points_on_line point1 point2)
    exact ⟨e, he, fun y hm => ⟨(hy y hm).1, hc, (hy y hm).2⟩⟩
  · rw [if_neg hc]
    exact ⟨[], by simp, by simp⟩

lemma passStep_mem {q n : ℕ} (point1 : Vec q n) :
    ∀ (acc2 : List (Vec q n)) (point2 y : Vec q n),
      (point1 ≠ point2 ∧ y ∈ points_on_line point1 point2) →
      y ∈ (if point1 ≠ point2 then addNew acc2 (points_on_line point1 point2) else acc2) := by
  intro acc2 point2 y hS
  rw [if_pos hS.1]
  exact (mem_addNew acc2 _ y).mpr (Or.inr hS.2)

lemma passOnce_outer_decompose {q n : ℕ} (l : List (Vec q n)) :
    ∀ (acc : List (Vec q n)) (point1 : Vec q n),
      ∃ e, (l.foldl (fun acc2 point2 =>
          if point1 ≠ point2 then addNew acc2 (points_on_line point1 point2) else acc2) acc) =
          acc ++ e ∧
        ∀ y ∈ e, y ∉ acc ∧ ∃ p2 : Vec q n, p2 ∈ l ∧ point1 ≠ p2 ∧
          y ∈ points_on_line point1 p2 := by
  intro acc point1
  obtain ⟨e, he, hy⟩ := foldl_add_decompose _
    (fun point2 y => point1 ≠ point2 ∧ y ∈ points_on_line point1 point2)
    (passStep_decompose point1) l acc
  refine ⟨e, he, fun y hm => ⟨(hy y hm).1, ?_⟩⟩
  obtain ⟨p2, hp2, hS⟩ := (hy y hm).2
  exact ⟨p2, hp2, hS⟩

lemma passOnce_outer_mem {q n : ℕ} (l : List (Vec q n)) (acc : List (Vec q n))
    (point1 y : Vec q n)
    (hS : ∃ p2 : Vec q n, p2 ∈ l ∧ point1 ≠ p2 ∧ y ∈ points_on_line point1 p2) :
    y ∈ l.foldl (fun acc2 point2 =>
      if point1 ≠ point2 then addNew acc2 (points_on_line point1 point2) else acc2) acc := by
  obtain ⟨p2, hp2, hS2⟩ := hS
  exact foldl_add_complete _
    (fun point2 y => point1 ≠ point2 ∧ y ∈ points_on_line point1 point2)
    (passStep_decompose point1) (passStep_mem point1) l acc p2 y hp2 hS2

lemma mem_passOnce {q n : ℕ} (l : List (Vec q n)) (y : Vec q n) :
    y ∈ passOnce l ↔
      y ∈ l ∨ ∃ p1 ∈ l, ∃ p2 ∈ l, p1 ≠ p2 ∧ y ∈ points_on_line p1 p2 := by
  rw [passOnce]
  rw [foldl_add_mem _
    (fun point1 y => ∃ p2 : Vec q n, p2 ∈ l ∧ point1 ≠ p2 ∧ y ∈ points_on_line point1 p2)
    (passOnce_outer_decompose l)
    (fun acc point1 y hS => passOnce_outer_mem l acc point1 y hS) l l y]

lemma passOnce_decompose {q n : ℕ} (l : List (Vec q n)) :
    ∃ e, passOnce l = l ++ e ∧ ∀ y ∈ e, y ∉ l := by
  rw [passOnce]
  obtain ⟨e, he, hy⟩ := foldl_add_decompose _
    (fun point1 y => ∃ p2 : Vec q n, p2 ∈ l ∧ point1 ≠ p2 ∧ y ∈ points_on_line point1 p2)
    (passOnce_outer_decompose l)
    l l
  exact ⟨e, he, fun y hm => (hy y hm).1⟩

lemma passOnce_nodup {q n : ℕ} (l : List (Vec q n)) (h : l.Nodup) : (passOnce l).Nodup := by
  rw [passOnce]
  refine foldl_add_nodup _ ?_ l l h
  intro acc point1 hacc
  refine foldl_add_nodup _ ?_ l acc hacc
  intro acc2 point2 h2
  by_cases hc : point1 ≠ point2
  · rw [if_pos hc]
    exact addNew_nodup acc2 _ h2
  · rw [if_neg hc]
    exact h2

lemma passOnce_complete {q n : ℕ} {l : List (Vec q n)} {p1 p2 y : Vec q n}
    (hp1 : p1 ∈ l) (hp2 : p2 ∈ l) (hne : p1 ≠ p2) (hy : y ∈ points_on_line p1 p2) :
    y ∈ passOnce l :=
  (mem_passOnce l y).mpr (Or.inr ⟨p1, hp1, p2, hp2, hne, hy⟩)

lemma passOnce_card_lt {q n : ℕ} {l : List (Vec q n)} (h : passOnce l ≠ l) :
    l.toFinset.card < (passOnce l).toFinset.card := by
  obtain ⟨e, he, hy⟩ := passOnce_decompose l
  cases e with
  | nil => exact absurd (he.trans (List.append_nil l)) h
  | cons y0 e2 =>
    refine Finset.card_lt_card ⟨?_, ?_⟩
    · intro x hx
      rw [List.mem_toFinset] at hx
      rw [List.mem_toFinset, he]
      exact List.mem_append_left _ hx
    · intro hsub
      have hy0 : y0 ∈ (passOnce l).toFinset := by
        rw [List.mem_toFinset, he]
        exact List.mem_append_right _ (List.mem_cons_self y0 e2)
      have := hsub hy0
      rw [List.mem_toFinset] at this
      exact hy y0 (List.mem_cons_self y0 e2) this

lemma toFinset_card_le_pow {q n : ℕ} [NeZero q] (l : List (Vec q n)) :
    l.toFinset.card ≤ q ^ n := by
  have h := Finset.card_le_univ l.toFinset
  rwa [Fintype.card_fun, ZMod.card, Fintype.card_fin] at h

lemma reconstructFuel_fix {q n : ℕ} [NeZero q] :
    ∀ (fuel : ℕ) (l : List (Vec q n)), q ^ n + 1 - l.toFinset.card ≤ fuel →
      passOnce (reconstructFuel fuel l) = reconstructFuel fuel l := by
  intro fuel
  induction fuel with
  | zero =>
    intro l hle
    have h1 : l.toFinset.card ≤ q ^ n := toFinset_card_le_pow l
    omega
  | succ fuel ih =>
    intro l hle
    simp only [reconstructFuel]
    by_cases h : passOnce l = l
    · rw [if_pos h]
      exact h
    · rw [if_neg h]
      refine ih (passOnce l) ?_
      have h1 := passOnce_card_lt h
      have h2 : (passOnce l).toFinset.card ≤ q ^ n := toFinset_card_le_pow _
      omega

lemma mem_reconstructFuel {q n : ℕ} :
    ∀ (fuel : ℕ) (l : List (Vec q n)) (x : Vec q n), x ∈ l → x ∈ reconstructFuel fuel l := by
  intro fuel
  induction fuel with
  | zero => intro l x hx; exact hx
  | succ fuel ih =>
    intro l x hx
    simp only [reconstructFuel]
    by_cases h : passOnce l = l
    · rw [if_pos h]; exact hx
    · rw [if_neg h]
      refine ih (passOnce l) x ?_
      obtain ⟨e, he, -⟩ := passOnce_decompose l
      rw [he]
      exact List.mem_append_left _ hx

/-- The span-closure recursion always reaches a fixed point of the pass. -/
lemma reconstruct_hyperplane_fix {q n : ℕ} [NeZero q] (l : List (Vec q n)) :
    passOnce (reconstruct_hyperplane l) = reconstruct_hyperplane l :=
  reconstructFuel_fix (q ^ n + 1) l (Nat.sub_le _ _)

lemma mem_reconstruct_of_mem {q n : ℕ} (l : List (Vec q n)) (x : Vec q n) (hx : x ∈ l) :
    x ∈ reconstruct_hyperplane l :=
  mem_reconstructFuel (q ^ n + 1) l x hx

/-! ### The closure computes exactly the projective points of the linear span -/

lemma passOnce_invariant {q n : ℕ} [hq : Fact q.Prime] (W : Submodule (ZMod q) (Vec q n))
    {l : List (Vec q n)} (hl : ∀ x ∈ l, x ≠ 0 ∧ normalize x = x ∧ x ∈ W) :
    ∀ x ∈ passOnce l, x ≠ 0 ∧ normalize x = x ∧ x ∈ W := by
  haveI : NeZero q := ⟨hq.out.ne_zero⟩
  intro x hx
  rcases (mem_passOnce l x).mp hx with h | ⟨p1, hp1, p2, hp2, hne, hline⟩
  · exact hl x h
  · obtain ⟨h1z, h1n, h1W⟩ := hl p1 hp1
    obtain ⟨h2z, h2n, h2W⟩ := hl p2 hp2
    obtain ⟨z, a, hc, rfl⟩ := (mem_points_on_line p1 p2 x).mp hline
    have hcomb : z • p1 + a • p2 ≠ 0 :=
      combo_ne_zero h1n h1z h2n h2z hne z a (by tauto)
    obtain ⟨c, hc0, hcv⟩ := normalize_eq_smul hcomb
    refine ⟨normalize_ne_zero hcomb, normalize_normalize _, ?_⟩
    rw [hcv]
    exact W.smul_mem c (W.add_mem (W.smul_mem z h1W) (W.smul_mem a h2W))

lemma reconstructFuel_invariant {q n : ℕ} [Fact q.Prime] (W : Submodule (ZMod q) (Vec q n)) :
    ∀ (fuel : ℕ) (l : List (Vec q n)), (∀ x ∈ l, x ≠ 0 ∧ normalize x = x ∧ x ∈ W) →
      ∀ x ∈ reconstructFuel fuel l, x ≠ 0 ∧ normalize x = x ∧ x ∈ W := by
  intro fuel
  induction fuel with
  | zero => intro l hl; exact hl
  | succ fuel ih =>
    intro l hl
    simp only [reconstructFuel]
    by_cases h : passOnce l = l
    · rw [if_pos h]; exact hl
    · rw [if_neg h]
      exact ih (passOnce l) (passOnce_invariant W hl)

lemma reconstruct_closed {q n : ℕ} [NeZero q] {l : List (Vec q n)} {p1 p2 : Vec q n}
    (hp1 : p1 ∈ reconstruct_hyperplane l) (hp2 : p2 ∈ reconstruct_hyperplane l)
    (hne : p1 ≠ p2) {y : Vec q n} (hy : y ∈ points_on_line p1 p2) :
    y ∈ reconstruct_hyperplane l := by
  have hfix := reconstruct_hyperplane_fix l
  rw [← hfix]
  exact passOnce_complete hp1 hp2 hne hy

/-- The reconstructed list contains exactly the canonical forms of the nonzero
vectors of the linear span of the input points: `reconstruct_hyperplane`
computes the point set of the projective subspace generated by its input. -/
theorem mem_reconstruct_iff {q n : ℕ} [hq : Fact q.Prime] (l : List (Vec q n))
    (hl : ∀ x ∈ l, x ≠ 0 ∧ normalize x = x) (x : Vec q n) :
    x ∈ reconstruct_hyperplane l ↔
      ∃ v : Vec q n, v ∈ Submodule.span (ZMod q) {y : Vec q n | y ∈ l} ∧ v ≠ 0 ∧
        x = normalize v := by
  haveI : NeZero q := ⟨hq.out.ne_zero⟩
  constructor
  · intro hx
    have hinv := reconstructFuel_invariant
      (Submodule.span (ZMod q) {y : Vec q n | y ∈ l}) (q ^ n + 1) l
      (fun y hy => ⟨(hl y hy).1, (hl y hy).2, Submodule.subset_span hy⟩) x hx
    exact ⟨x, hinv.2.2, hinv.1, hinv.2.1.symm⟩
  · rintro ⟨v, hv, hvz, rfl⟩
    have key : ∀ w : Vec q n, w ∈ Submodule.span (ZMod q) {y : Vec q n | y ∈ l} →
        w = 0 ∨ normalize w ∈ reconstruct_hyperplane l := by
      intro w hw
      induction hw using Submodule.span_induction with
      | mem y hy =>
        right
        rw [(hl y hy).2]
        exact mem_reconstruct_of_mem l y hy
      | zero => left; rfl
      | add y w2 hy hw2 ihy ihw2 =>
        by_cases hy0 : y = 0
        · rw [hy0, zero_add]; exact ihw2
        by_cases hw0 : w2 = 0
        · rw [hw0, add_zero]; exact ihy
        have hny : normalize y ∈ reconstruct_hyperplane l := ihy.resolve_left hy0
        have hnw : normalize w2 ∈ reconstruct_hyperplane l := ihw2.resolve_left hw0
        obtain ⟨a, ha, hay⟩ := exists_smul_normalize hy0
        obtain ⟨b, hb, hbw⟩ := exists_smul_normalize hw0
        by_cases hnn : normalize y = normalize w2
        · have hsum : y + w2 = (a + b) • normalize y := by
            rw [add_smul]
            nth_rewrite 1 [hay]
            nth_rewrite 1 [hbw]
            rw [hnn]
          by_cases hab : a + b = 0
          · left; rw [hsum, hab, zero_smul]
          · right
            rw [hsum, normalize_smul hab, normalize_normalize]
            exact hny
        · right
          have hsum : y + w2 = a • normalize y + b • normalize w2 := by
            nth_rewrite 1 [hay]
            nth_rewrite 1 [hbw]
            rfl
          have hmem : normalize (y + w2) ∈ points_on_line (normalize y) (normalize w2) := by
            rw [mem_points_on_line]
            exact ⟨a, b, Or.inr ha, by rw [hsum]⟩
          exact reconstruct_closed hny hnw hnn hmem
      | smul a y hy ihy =>
        rcases ihy with h | h
        · left; rw [h, smul_zero]
        · by_cases ha : a = 0
          · left; rw [ha, zero_smul]
          · by_cases hy0 : y = 0
            · left; rw [hy0, smul_zero]
            · right; rw [normalize_smul ha]; exact h
    rcases key v hv with h | h
    · exact absurd h hvz
    · exact h

/-! ### The executable rank agrees with `Module.finrank` of the row span -/

lemma spanFinset_coe {q n : ℕ} [NeZero q] (rows : List (Vec q n)) (x : Vec q n) :
    x ∈ spanFinset rows ↔ x ∈ Submodule.span (ZMod q) (Set.range rows.get) := by
  rw [spanFinset, List.mem_toFinset, List.mem_map, mem_span_range_iff_exists_fun]
  constructor
  · rintro ⟨c, _, rfl⟩
    exact ⟨c, rfl⟩
  · rintro ⟨c, hc⟩
    exact ⟨c, mem_vecList c, hc⟩

lemma range_get_eq {q n : ℕ} (rows : List (Vec q n)) :
    Set.range rows.get = {y : Vec q n | y ∈ rows} := by
  ext y
  simp only [Set.mem_range, Set.mem_setOf_eq, List.mem_iff_get]

lemma spanFinset_card {q n : ℕ} [hq : Fact q.Prime] (rows : List (Vec q n)) :
    (spanFinset rows).card =
      q ^ Module.finrank (ZMod q) (Submodule.span (ZMod q) (Set.range rows.get)) := by
  haveI : NeZero q := ⟨hq.out.ne_zero⟩
  have hset : (↑(spanFinset rows) : Set (Vec q n)) =
      ↑(Submodule.span (ZMod q) (Set.range rows.get)) := by
    ext x
    rw [Finset.mem_coe, spanFinset_coe]
    rfl
  haveI : Fintype ↥(Submodule.span (ZMod q) (Set.range rows.get)) :=
    Fintype.ofFinite _
  have h1 : (spanFinset rows).card =
      Nat.card ↥(Submodule.span (ZMod q) (Set.range rows.get)) := by
    rw [← Set.ncard_coe_Finset, hset]
    exact (Set.Nat.card_coe_set_eq _).symm
  have h2 : Fintype.card ↥(Submodule.span (ZMod q) (Set.range rows.get)) =
      Fintype.card (ZMod q) ^
        Module.finrank (ZMod q) (Submodule.span (ZMod q) (Set.range rows.get)) :=
    card_eq_pow_finrank
  rw [h1, Nat.card_eq_fintype_card, h2, ZMod.card]

/-- `sage.matrix(GF(q), rows).rank()` as computed by `matRank` is the dimension
of the row span. -/
lemma matRank_eq_finrank {q n : ℕ} [hq : Fact q.Prime] (rows : List (Vec q n)) :
    matRank rows = Module.finrank (ZMod q) (Submodule.span (ZMod q) (Set.range rows.get)) := by
  rw [matRank, spanFinset_card, Nat.log_pow hq.out.one_lt]

lemma matRank_eq_finrank_mem {q n : ℕ} [Fact q.Prime] (rows : List (Vec q n)) :
    matRank rows = Module.finrank (ZMod q) (Submodule.span (ZMod q) {y : Vec q n | y ∈ rows}) := by
  rw [matRank_eq_finrank, range_get_eq]

/-! ### Dual hyperplanes as kernels -/

/-- The dot product against a fixed pole, as a linear map (proof infrastructure
for reasoning about `all_hyperplaines`). -/
def dotMap {q n : ℕ} (u : Vec q n) : Vec q n →ₗ[ZMod q] ZMod q where
  toFun v := dot u v
  map_add' v w := by
    simp [dot, mul_add, Finset.sum_add_distrib]
  map_smul' c v := by
    simp [dot, Finset.mul_sum, smul_eq_mul, mul_left_comm]

lemma dotMap_apply {q n : ℕ} (u v : Vec q n) : dotMap u v = dot u v := rfl

lemma dotMap_surjective {q n : ℕ} [Fact q.Prime] {u : Vec q n} (hu : u ≠ 0) :
    Function.Surjective (dotMap u) := by
  have : ∃ i, u i ≠ 0 := by
    by_contra h
    push_neg at h
    exact hu (funext h)
  obtain ⟨i, hi⟩ := this
  intro c
  refine ⟨Pi.single i ((u i)⁻¹ * c), ?_⟩
  rw [dotMap_apply, dot]
  rw [Finset.sum_eq_single i]
  · rw [Pi.single_eq_same, ← mul_assoc, mul_inv_cancel₀ hi, one_mul]
  · intro b _ hb
    rw [Pi.single_eq_of_ne hb, mul_zero]
  · intro h
    exact absurd (Finset.mem_univ i) h

lemma finrank_ker_dotMap {q n : ℕ} [Fact q.Prime] {u : Vec q n} (hu : u ≠ 0) :
    Module.finrank (ZMod q) (LinearMap.ker (dotMap u)) = n - 1 := by
  have h := LinearMap.finrank_range_add_finrank_ker (dotMap u)
  rw [LinearMap.range_eq_top.mpr (dotMap_surjective hu), finrank_top,
    Module.finrank_self, Module.finrank_pi, Fintype.card_fin] at h
  omega

/-- Two distinct canonical points span a plane (vector dimension 2). -/
lemma finrank_span_pair {q n : ℕ} [Fact q.Prime] {p1 p2 : Vec q n}
    (h1 : normalize p1 = p1) (h1z : p1 ≠ 0) (h2 : normalize p2 = p2) (h2z : p2 ≠ 0)
    (hne : p1 ≠ p2) :
    Module.finrank (ZMod q) (Submodule.span (ZMod q) {p1, p2}) = 2 := by
  have hli : LinearIndependent (ZMod q) ![p1, p2] := by
    rw [linearIndependent_fin2]
    simp only [Matrix.cons_val_one, Matrix.head_cons, Matrix.cons_val_zero]
    refine ⟨h2z, ?_⟩
    intro a hcontra
    by_cases ha : a = 0
    · rw [ha, zero_smul] at hcontra
      exact h1z hcontra.symm
    · refine hne ?_
      calc p1 = normalize p1 := h1.symm
        _ = normalize (a • p2) := by rw [hcontra]
        _ = normalize p2 := normalize_smul ha p2
        _ = p2 := h2
  have hcard := finrank_span_eq_card hli
  rw [Fintype.card_fin] at hcard
  have hr : Set.range ![p1, p2] = {p1, p2} := by
    ext x
    simp only [Set.mem_range, Fin.exists_fin_two, Matrix.cons_val_zero, Matrix.cons_val_one,
      Matrix.head_cons, Set.mem_insert_iff, Set.mem_singleton_iff]
    exact or_congr eq_comm eq_comm
  rwa [hr] at hcard

lemma finrank_span_le_length {q n : ℕ} [Fact q.Prime] (rows : List (Vec q n)) :
    Module.finrank (ZMod q) (Submodule.span (ZMod q) (Set.range rows.get)) ≤ rows.length := by
  classical
  have h : Module.finrank (ZMod q) (Submodule.span (ZMod q) (Set.range rows.get)) ≤
      (Set.range rows.get).toFinset.card := finrank_span_le_card _
  have h2 : (Set.range rows.get).toFinset.card ≤ rows.length := by
    rw [Set.toFinset_range]
    calc (Finset.univ.image rows.get).card ≤ Finset.univ.card := Finset.card_image_le
      _ = rows.length := by rw [Finset.card_univ, Fintype.card_fin]
  omega

/-! ### A line has exactly `q + 1` points -/

lemma norm_add_smul_ne {q n : ℕ} [Fact q.Prime] {p1 p2 : Vec q n}
    (h1 : normalize p1 = p1) (h1z : p1 ≠ 0) (h2 : normalize p2 = p2) (h2z : p2 ≠ 0)
    (hne : p1 ≠ p2) (a : ZMod q) : normalize (p1 + a • p2) ≠ p2 := by
  intro heq
  have hcz : p1 + a • p2 ≠ 0 := by
    have := combo_ne_zero h1 h1z h2 h2z hne 1 a (by simp)
    rwa [one_smul] at this
  obtain ⟨c, hc, hcv⟩ := normalize_eq_smul hcz
  rw [hcv] at heq
  have hx : c • p1 + (c * a) • p2 = p2 := by
    rw [← smul_smul, ← smul_add]
    exact heq
  have h0 : c • p1 + (c * a - 1) • p2 = 0 := by
    rw [sub_smul, one_smul, ← add_sub_assoc]
    exact sub_eq_zero_of_eq hx
  exact hc (canonical_indep h1 h1z h2 h2z hne c (c * a - 1) h0).1

lemma norm_add_smul_inj {q n : ℕ} [Fact q.Prime] {p1 p2 : Vec q n}
    (h1 : normalize p1 = p1) (h1z : p1 ≠ 0) (h2 : normalize p2 = p2) (h2z : p2 ≠ 0)
    (hne : p1 ≠ p2) (a a2 : ZMod q)
    (heq : normalize (p1 + a • p2) = normalize (p1 + a2 • p2)) : a = a2 := by
  have hcz : p1 + a2 • p2 ≠ 0 := by
    have := combo_ne_zero h1 h1z h2 h2z hne 1 a2 (by simp)
    rwa [one_smul] at this
  have hcz1 : p1 + a • p2 ≠ 0 := by
    have := combo_ne_zero h1 h1z h2 h2z hne 1 a (by simp)
    rwa [one_smul] at this
  obtain ⟨c, hc, hcv⟩ := normalize_inj hcz1 hcz heq
  have hcv2 : p1 + a • p2 = c • p1 + (c * a2) • p2 := by
    rw [← smul_smul, ← smul_add]
    exact hcv
  have h0 : (1 - c) • p1 + (a - c * a2) • p2 = 0 := by
    rw [sub_smul, sub_smul, one_smul, sub_add_sub_comm]
    exact sub_eq_zero_of_eq hcv2
  obtain ⟨hc1, hc2⟩ := canonical_indep h1 h1z h2 h2z hne _ _ h0
  have hcc : c = 1 := (sub_eq_zero.mp hc1).symm
  rw [hcc, one_mul] at hc2
  exact sub_eq_zero.mp hc2

lemma points_on_line_toFinset {q n : ℕ} [hq : Fact q.Prime] {p1 p2 : Vec q n}
    (h2 : normalize p2 = p2) :
    (points_on_line p1 p2).toFinset =
      Finset.univ.image (fun o : Option (ZMod q) =>
        o.elim p2 (fun a => normalize (p1 + a • p2))) := by
  haveI : NeZero q := ⟨hq.out.ne_zero⟩
  ext x
  rw [List.mem_toFinset, mem_points_on_line, Finset.mem_image]
  constructor
  · rintro ⟨z, a, hcond, rfl⟩
    by_cases hz : z = 0
    · have ha : a ≠ 0 := by
        rcases hcond with h | h
        · exact h
        · exact absurd hz h
      refine ⟨none, Finset.mem_univ _, ?_⟩
      rw [Option.elim]
      rw [hz, zero_smul, zero_add, normalize_smul ha, h2]
    · refine ⟨some (z⁻¹ * a), Finset.mem_univ _, ?_⟩
      rw [Option.elim]
      have : p1 + (z⁻¹ * a) • p2 = z⁻¹ • (z • p1 + a • p2) := by
        rw [smul_add, smul_smul, smul_smul, inv_mul_cancel₀ hz, one_smul]
      rw [this, normalize_smul (inv_ne_zero hz)]
  · rintro ⟨o, -, rfl⟩
    cases o with
    | none =>
      refine ⟨0, 1, Or.inl one_ne_zero, ?_⟩
      rw [Option.elim, zero_smul, one_smul, zero_add, h2]
    | some a =>
      refine ⟨1, a, Or.inr one_ne_zero, ?_⟩
      rw [Option.elim, one_smul]

lemma points_on_line_length {q n : ℕ} [hq : Fact q.Prime] {p1 p2 : Vec q n}
    (h1 : normalize p1 = p1) (h1z : p1 ≠ 0) (h2 : normalize p2 = p2) (h2z : p2 ≠ 0)
    (hne : p1 ≠ p2) : (points_on_line p1 p2).length = q + 1 := by
  haveI : NeZero q := ⟨hq.out.ne_zero⟩
  have hnd := points_on_line_nodup p1 p2
  rw [← List.toFinset_card_of_nodup hnd, points_on_line_toFinset h2]
  have hinj : Function.Injective (fun o : Option (ZMod q) =>
      o.elim p2 (fun a => normalize (p1 + a • p2))) := by
    intro o1 o2 heq
    cases o1 with
    | none =>
      cases o2 with
      | none => rfl
      | some a =>
        simp only [Option.elim] at heq
        exact absurd heq.symm (norm_add_smul_ne h1 h1z h2 h2z hne a)
    | some a =>
      cases o2 with
      | none =>
        simp only [Option.elim] at heq
        exact absurd heq (norm_add_smul_ne h1 h1z h2 h2z hne a)
      | some a2 =>
        simp only [Option.elim] at heq
        rw [norm_add_smul_inj h1 h1z h2 h2z hne a a2 heq]
  rw [Finset.card_image_of_injective _ hinj, Finset.card_univ, Fintype.card_option, ZMod.card]

/-! ### Structural lemmas about the selection and decryption pipeline -/

lemma map_getD_range {q n : ℕ} (l : List (Vec q n)) :
    (List.range l.length).map (fun i => l.getD i 0) = l := by
  induction l with
  | nil => rfl
  | cons a t ih =>
    rw [List.length_cons, List.range_succ_eq_map, List.map_cons, List.map_map]
    refine congrArg (a :: ·) ?_
    have hcomp : ((fun i => (a :: t).getD i 0) ∘ Nat.succ) = fun i => t.getD i 0 := by
      funext i
      rfl
    rw [hcomp, ih]

lemma applyPerm_perm {q n : ℕ} (σ : List ℕ) (l : List (Vec q n)) :
    (applyPerm σ l).Perm l := by
  rw [applyPerm]
  by_cases h : σ.Perm (List.range l.length)
  · rw [if_pos h]
    have hp2 := h.map (fun i => l.getD i 0)
    rw [map_getD_range] at hp2
    exact hp2
  · rw [if_neg h]

lemma mem_intersect {q n : ℕ} (hyperplane secret_line : List (Vec q n)) (x : Vec q n) :
    x ∈ intersect_hyperplane_w_secret_line hyperplane secret_line ↔
      x ∈ hyperplane ∧ x ∈ secret_line := by
  rw [intersect_hyperplane_w_secret_line, List.mem_toFinset, List.mem_filter]
  simp

lemma all_hyperplaines_length {q n : ℕ} (points : List (Vec q n)) :
    (all_hyperplaines points).length = points.length := by
  rw [all_hyperplaines, List.length_map]

lemma all_hyperplaines_getD {q n : ℕ} (points : List (Vec q n)) (i : ℕ)
    (hi : i < points.length) :
    (all_hyperplaines points).getD i [] =
      points.filter (fun point2 => decide (dot (points.getD i 0) point2 = 0)) := by
  rw [all_hyperplaines]
  rw [List.getD_eq_getElem?_getD, List.getElem?_map]
  rw [List.getElem?_eq_getElem hi]
  rw [List.getD_eq_getElem?_getD, List.getElem?_eq_getElem hi]
  rfl

lemma mem_find_hyperplanes {q n : ℕ} (hyperplanes : List (List (Vec q n)))
    (secret_line : List (Vec q n)) (p : Vec q n) (i : ℕ) :
    i ∈ find_hyperplanes_for_secret_line hyperplanes secret_line p ↔
      p ∈ secret_line ∧ i < hyperplanes.length ∧ p ∈ hyperplanes.getD i [] ∧
        ¬ line_in_plane secret_line (hyperplanes.getD i []) := by
  rw [find_hyperplanes_for_secret_line]
  by_cases hp : p ∈ secret_line
  · rw [if_pos hp]
    rw [List.mem_filter, List.mem_range]
    simp [point_in_plane, hp, and_assoc]
  · rw [if_neg hp]
    simp [hp]

lemma getD_set_cases {q n : ℕ} (store : List (List (Vec q n))) (idx : ℕ)
    (newl : List (Vec q n)) (j : ℕ) :
    (store.set idx newl).getD j [] = store.getD j [] ∨
      (j = idx ∧ (store.set idx newl).getD j [] = newl) := by
  by_cases hj : j = idx
  · subst hj
    by_cases hi : j < store.length
    · right
      refine ⟨rfl, ?_⟩
      rw [List.getD_eq_getElem?_getD, List.getElem?_set_self hi]
      rfl
    · left
      rw [List.set_eq_of_length_le (by omega)]
  · left
    rw [List.getD_eq_getElem?_getD, List.getElem?_set_ne (fun h => hj h.symm),
      List.getD_eq_getElem?_getD]

/-- The arc built by `find_largest_general_position_subset` is, after removing
the seeded secret, a list of pool members. -/
lemma flgps_ok_subset {q n : ℕ} {secret_splitters : List (Vec q n)} {secret : Vec q n}
    {σ : List ℕ} {subset shuffled : List (Vec q n)}
    (h : find_largest_general_position_subset secret_splitters secret σ =
      (.ok subset, shuffled)) :
    shuffled.Perm secret_splitters ∧ ∀ x ∈ subset, x ∈ secret_splitters := by
  have hperm : (applyPerm σ secret_splitters).Perm secret_splitters :=
    applyPerm_perm σ secret_splitters
  rw [find_largest_general_position_subset] at h
  cases hsh : applyPerm σ secret_splitters with
  | nil =>
    rw [hsh] at h hperm
    exact absurd h (by simp)
  | cons s0 t =>
    rw [hsh] at h hperm
    simp only [Prod.mk.injEq, SpRes.ok.injEq] at h
    obtain ⟨hsub, hshuf⟩ := h
    subst hshuf
    refine ⟨hperm, ?_⟩
    have harc : ∃ tail, ((s0 :: t).foldl (fun arc point =>
        if is_general_position (arc ++ [point]) then arc ++ [point] else arc)
        [secret, s0]) = [secret, s0] ++ tail ∧ ∀ x ∈ tail, x ∈ s0 :: t := by
      have hgen : ∀ (l acc : List (Vec q n)), (∀ b ∈ l, b ∈ s0 :: t) →
          ∃ tail, (l.foldl (fun arc point =>
            if is_general_position (arc ++ [point]) then arc ++ [point] else arc) acc) =
            acc ++ tail ∧ ∀ x ∈ tail, x ∈ s0 :: t := by
        intro l
        induction l with
        | nil => intro acc _; exact ⟨[], by simp, by simp⟩
        | cons b l ih =>
          intro acc hbl
          rw [List.foldl_cons]
          by_cases hb : is_general_position (acc ++ [b])
          · rw [if_pos hb]
            obtain ⟨tail, htail, hmem⟩ := ih (acc ++ [b]) (fun c hc => hbl c (by simp [hc]))
            refine ⟨[b] ++ tail, ?_, ?_⟩
            · rw [htail, List.append_assoc]
            · intro x hx
              rcases List.mem_append.mp hx with hx | hx
              · rw [List.mem_singleton] at hx
                exact hx ▸ hbl b (List.mem_cons_self b l)
              · exact hmem x hx
          · rw [if_neg hb]
            exact ih acc (fun c hc => hbl c (by simp [hc]))
      exact hgen (s0 :: t) [secret, s0] (fun b hb => hb)
    obtain ⟨tail, htail, hmem⟩ := harc
    intro x hx
    rw [← hsub] at hx
    rw [htail] at hx
    have herase : ([secret, s0] ++ tail).erase secret = [s0] ++ tail :=
      List.erase_cons_head secret ([s0] ++ tail)
    rw [herase] at hx
    rcases List.mem_append.mp hx with hx | hx
    · rw [List.mem_singleton] at hx
      exact hperm.mem_iff.mp (hx ▸ List.mem_cons_self s0 t)
    · exact hperm.mem_iff.mp (hmem x hx)

/-- When all the validations pass, `t_threshold_decrypt` prints the
intersection of the reconstructed hyperplane with the secret line. -/
lemma t_threshold_decrypt_success {q n : ℕ} (splitted_secrets secret_line : List (Vec q n))
    (ho : 1 < secret_line.length - 1) (hd : 1 < n - 1)
    (hs1 : 1 < splitted_secrets.length) (hs : ¬ splitted_secrets.length < n - 1)
    (hp : Nat.Prime (secret_line.length - 1))
    (hz1 : ∀ v ∈ splitted_secrets, v ≠ 0) (hz2 : ∀ v ∈ secret_line, v ≠ 0) :
    t_threshold_decrypt splitted_secrets secret_line =
      .secretSet (intersect_hyperplane_w_secret_line
        (reconstruct_hyperplane (splitted_secrets.map normalize))
        (secret_line.map normalize)) := by
  have hne : ¬ (secret_line.isEmpty = true) := by
    rw [List.isEmpty_iff]
    intro h
    rw [h] at ho
    simp at ho
  rw [t_threshold_decrypt]
  rw [if_neg hne]
  rw [if_neg (by omega : ¬ (secret_line.length - 1 ≤ 1 ∨ n - 1 ≤ 1 ∨
    splitted_secrets.length ≤ 1))]
  rw [if_neg hs]
  rw [if_neg (not_not_intro ((sage_is_prime_iff _).mpr hp))]
  rw [if_neg ?_]
  rw [not_or]
  constructor
  · intro hc
    obtain ⟨v, hv, hv0⟩ := List.any_eq_true.mp hc
    exact hz1 v hv (of_decide_eq_true hv0)
  · intro hc
    obtain ⟨v, hv, hv0⟩ := List.any_eq_true.mp hc
    exact hz2 v hv (of_decide_eq_true hv0)

/-- Minus any single point, the listed points of a rank-2 dual hyperplane still
span it: the raw candidate pool of the `dimension == 2` branch has full rank. -/
lemma span_dual_erase {q n : ℕ} [hq : Fact q.Prime] {u : Vec q n} (sec : Vec q n)
    (hrank : Module.finrank (ZMod q) (LinearMap.ker (dotMap u)) = 2) :
    Submodule.span (ZMod q)
      {y : Vec q n | y ∈ ((allPoints q n).filter
        (fun p => decide (dot u p = 0))).erase sec} =
      LinearMap.ker (dotMap u) := by
  haveI : NeZero q := ⟨hq.out.ne_zero⟩
  have hbot : LinearMap.ker (dotMap u) ≠ ⊥ := by
    intro h
    rw [h, finrank_bot] at hrank
    omega
  obtain ⟨v1, hv1W, hv1z⟩ := Submodule.exists_mem_ne_zero_of_ne_bot hbot
  have hle1 : Submodule.span (ZMod q) {v1} ≤ LinearMap.ker (dotMap u) := by
    rw [Submodule.span_le, Set.singleton_subset_iff]
    exact hv1W
  have hlt : Submodule.span (ZMod q) {v1} < LinearMap.ker (dotMap u) := by
    refine lt_of_le_of_ne hle1 ?_
    intro heq
    have h1 : Module.finrank (ZMod q) (Submodule.span (ZMod q) {v1}) = 1 :=
      finrank_span_singleton hv1z
    rw [heq, hrank] at h1
    omega
  obtain ⟨v2, hv2W, hv2s⟩ := SetLike.exists_of_lt hlt
  have hv2z : v2 ≠ 0 := by
    intro h
    rw [h] at hv2s
    exact hv2s (Submodule.zero_mem _)
  have hv12 : v1 + v2 ≠ 0 := by
    intro h
    refine hv2s (Submodule.mem_span_singleton.mpr ⟨-1, ?_⟩)
    rw [neg_smul, one_smul]
    exact (eq_neg_of_add_eq_zero_right h).symm
  have hprop : ∀ c : ZMod q, v2 ≠ c • v1 := by
    intro c h
    exact hv2s (Submodule.mem_span_singleton.mpr ⟨c, h.symm⟩)
  -- the three candidate canonical points
  have hWmem : ∀ w : Vec q n, w ≠ 0 → w ∈ LinearMap.ker (dotMap u) →
      normalize w ∈ ((allPoints q n).filter (fun p => decide (dot u p = 0))) := by
    intro w hwz hwW
    rw [List.mem_filter]
    obtain ⟨c, hc, hcv⟩ := normalize_eq_smul hwz
    constructor
    · rw [mem_allPoints_iff]
      exact ⟨normalize_ne_zero hwz, normalize_normalize w⟩
    · rw [decide_eq_true_eq]
      have : normalize w ∈ LinearMap.ker (dotMap u) := by
        rw [hcv]
        exact Submodule.smul_mem _ c hwW
      rwa [LinearMap.mem_ker, dotMap_apply] at this
  have hn12 : normalize v1 ≠ normalize v2 := by
    intro h
    obtain ⟨c, hc, hcv⟩ := normalize_inj hv2z hv1z h.symm
    exact hprop c hcv
  have hn13 : normalize v1 ≠ normalize (v1 + v2) := by
    intro h
    obtain ⟨c, hc, hcv⟩ := normalize_inj hv1z hv12 h
    have h2 : v1 = c • v1 + c • v2 := by
      nth_rewrite 1 [hcv]
      rw [smul_add]
    have h3 : v1 - c • v1 = c • v2 := by
      rw [sub_eq_iff_eq_add, add_comm]
      exact h2
    have h4 : (1 - c) • v1 = c • v2 := by
      rw [sub_smul, one_smul]
      exact h3
    have h5 : v2 = (c⁻¹ * (1 - c)) • v1 := by
      rw [← smul_smul, h4, smul_smul, inv_mul_cancel₀ hc, one_smul]
    exact hprop _ h5
  have hn23 : normalize v2 ≠ normalize (v1 + v2) := by
    intro h
    obtain ⟨c, hc, hcv⟩ := normalize_inj hv2z hv12 h
    have h2 : v2 = c • v1 + c • v2 := by
      nth_rewrite 1 [hcv]
      rw [smul_add]
    have h3 : v2 - c • v2 = c • v1 := by
      rw [sub_eq_iff_eq_add]
      exact h2
    have h4 : (1 - c) • v2 = c • v1 := by
      rw [sub_smul, one_smul]
      exact h3
    by_cases h1c : (1 : ZMod q) - c = 0
    · rw [h1c, zero_smul] at h4
      have : v1 = 0 := by
        rcases smul_eq_zero.mp h4.symm with hcc | hcc
        · exact absurd hcc hc
        · exact hcc
      exact hv1z this
    · have h5 : v2 = ((1 - c)⁻¹ * c) • v1 := by
        rw [← smul_smul, ← h4, smul_smul, inv_mul_cancel₀ h1c, one_smul]
      exact hprop _ h5
  -- pick two distinct canonical points different from `sec`
  have hpick : ∃ m1 m2 : Vec q n, m1 ≠ m2 ∧
      m1 ∈ ((allPoints q n).filter (fun p => decide (dot u p = 0))).erase sec ∧
      m2 ∈ ((allPoints q n).filter (fun p => decide (dot u p = 0))).erase sec ∧
      m1 ∈ LinearMap.ker (dotMap u) ∧ m2 ∈ LinearMap.ker (dotMap u) ∧
      m1 ≠ 0 ∧ m2 ≠ 0 ∧ normalize m1 = m1 ∧ normalize m2 = m2 := by
    have hker : ∀ w : Vec q n, w ≠ 0 → w ∈ LinearMap.ker (dotMap u) → normalize w ≠ sec →
        normalize w ∈ ((allPoints q n).filter (fun p => decide (dot u p = 0))).erase sec ∧
        normalize w ∈ LinearMap.ker (dotMap u) ∧ normalize w ≠ 0 ∧
        normalize (normalize w) = normalize w := by
      intro w hwz hwW hwsec
      obtain ⟨c, hc, hcv⟩ := normalize_eq_smul hwz
      refine ⟨(List.mem_erase_of_ne hwsec).mpr (hWmem w hwz hwW), ?_, normalize_ne_zero hwz,
        normalize_normalize w⟩
      rw [hcv]
      exact Submodule.smul_mem _ c hwW
    have h12 : v1 + v2 ∈ LinearMap.ker (dotMap u) := Submodule.add_mem _ hv1W hv2W
    by_cases h1 : normalize v1 = sec
    · -- use v2 and v1 + v2
      have hA := hker v2 hv2z hv2W (by rw [← h1]; exact fun h => hn12 h.symm)
      have hB := hker (v1 + v2) hv12 h12 (by rw [← h1]; exact fun h => hn13 h.symm)
      exact ⟨_, _, hn23, hA.1, hB.1, hA.2.1, hB.2.1, hA.2.2.1, hB.2.2.1, hA.2.2.2, hB.2.2.2⟩
    · by_cases h2 : normalize v2 = sec
      · have hA := hker v1 hv1z hv1W h1
        have hB := hker (v1 + v2) hv12 h12 (by rw [← h2]; exact fun h => hn23 h.symm)
        exact ⟨_, _, hn13, hA.1, hB.1, hA.2.1, hB.2.1, hA.2.2.1, hB.2.2.1, hA.2.2.2, hB.2.2.2⟩
      · have hA := hker v1 hv1z hv1W h1
        have hB := hker v2 hv2z hv2W h2
        exact ⟨_, _, hn12, hA.1, hB.1, hA.2.1, hB.2.1, hA.2.2.1, hB.2.2.1, hA.2.2.2, hB.2.2.2⟩
  obtain ⟨m1, m2, hm12, hm1e, hm2e, hm1W, hm2W, hm1z, hm2z, hm1n, hm2n⟩ := hpick
  refine le_antisymm ?_ ?_
  · rw [Submodule.span_le]
    intro x hx
    rw [Set.mem_setOf_eq] at hx
    have hx2 := List.mem_of_mem_erase hx
    rw [List.mem_filter, decide_eq_true_eq] at hx2
    rw [SetLike.mem_coe, LinearMap.mem_ker, dotMap_apply]
    exact hx2.2
  · have hpair : Submodule.span (ZMod q) {m1, m2} = LinearMap.ker (dotMap u) := by
      refine Submodule.eq_of_le_of_finrank_le ?_ ?_
      · rw [Submodule.span_le]
        intro x hx
        rcases Set.mem_insert_iff.mp hx with h | h
        · rw [h]; exact hm1W
        · rw [Set.mem_singleton_iff.mp h]; exact hm2W
      · rw [finrank_span_pair hm1n hm1z hm2n hm2z hm12, hrank]
    rw [← hpair]
    refine Submodule.span_mono ?_
    intro x hx
    rcases Set.mem_insert_iff.mp hx with h | h
    · rw [h]; exact hm1e
    · rw [Set.mem_singleton_iff.mp h]; exact hm2e

/-- The property guaranteed for every splitter list the selection returns: its
members are space points lying on a dual hyperplane whose pole is orthogonal
to the secret but not to the whole secret line, and they span that hyperplane. -/
def GoodSplit (q n : ℕ) (secret_line : List (Vec q n)) (secret : Vec q n)
    (spl : List (Vec q n)) : Prop :=
  ∃ u : Vec q n, u ≠ 0 ∧ dot u secret = 0 ∧ (∃ p ∈ secret_line, dot u p ≠ 0) ∧
    (∀ x ∈ spl, x ∈ allPoints q n) ∧
    Submodule.span (ZMod q) {y : Vec q n | y ∈ spl} = LinearMap.ker (dotMap u)

/-- What membership in the secret's candidate list gives: the indexed store
entry is the dual hyperplane of a nonzero pole orthogonal to the secret but
not to all of the secret line. -/
lemma cut_idx_facts {q n : ℕ} [NeZero q] {secret_line : List (Vec q n)} {secret : Vec q n}
    (hline : ∀ p ∈ secret_line, p ∈ allPoints q n) {idx : ℕ}
    (hidx : idx ∈ find_hyperplanes_for_secret_line (all_hyperplaines (allPoints q n))
      secret_line secret) :
    ∃ u : Vec q n, u ≠ 0 ∧
      (all_hyperplaines (allPoints q n)).getD idx [] =
        (allPoints q n).filter (fun p => decide (dot u p = 0)) ∧
      dot u secret = 0 ∧ (∃ p ∈ secret_line, dot u p ≠ 0) := by
  rw [mem_find_hyperplanes] at hidx
  obtain ⟨hsec_line, hlt, hsec_mem, hnotline⟩ := hidx
  rw [all_hyperplaines_length] at hlt
  have hgetD := all_hyperplaines_getD (allPoints q n) idx hlt
  refine ⟨(allPoints q n).getD idx 0, ?_, hgetD, ?_, ?_⟩
  · have hu : (allPoints q n).getD idx 0 ∈ allPoints q n := by
      rw [List.getD_eq_getElem _ _ hlt]
      exact List.getElem_mem hlt
    exact (mem_allPoints_iff.mp hu).1
  · rw [hgetD, List.mem_filter, decide_eq_true_eq] at hsec_mem
    exact hsec_mem.2
  · rw [line_in_plane] at hnotline
    push_neg at hnotline
    obtain ⟨p, hp_line, hp_not⟩ := hnotline
    refine ⟨p, hp_line, ?_⟩
    rw [point_in_plane, hgetD] at hp_not
    intro hdot
    exact hp_not (List.mem_filter.mpr ⟨hline p hp_line, decide_eq_true hdot⟩)

/-- The accepted arc of the rank-checked branch spans the selected dual
hyperplane. -/
lemma gss_rank_branch {q n : ℕ} [hq : Fact q.Prime] {secret_line : List (Vec q n)}
    {secret : Vec q n} {dimension : ℕ}
    (hline : ∀ p ∈ secret_line, p ∈ allPoints q n) (hn : n = dimension + 1)
    {idx : ℕ}
    (hidx : idx ∈ find_hyperplanes_for_secret_line (all_hyperplaines (allPoints q n))
      secret_line secret)
    {hp subset shuffled : List (Vec q n)} {σ : List ℕ}
    (hp_sub : ∀ x ∈ hp, x ∈ (all_hyperplaines (allPoints q n)).getD idx [])
    (hflg : find_largest_general_position_subset (hp.erase secret) secret σ =
      (.ok subset, shuffled))
    (hrank : dimension ≤ matRank subset) :
    GoodSplit q n secret_line secret subset := by
  haveI : NeZero q := ⟨hq.out.ne_zero⟩
  obtain ⟨u, hu, hgetD, hdots, hdotl⟩ := cut_idx_facts hline hidx
  obtain ⟨-, hsubset⟩ := flgps_ok_subset hflg
  have hsub2 : ∀ x ∈ subset, x ∈ (allPoints q n).filter (fun p => decide (dot u p = 0)) := by
    intro x hx
    have := hp_sub x (List.erase_subset _ _ (hsubset x hx))
    rwa [hgetD] at this
  have hmemall : ∀ x ∈ subset, x ∈ allPoints q n := by
    intro x hx
    exact (List.mem_filter.mp (hsub2 x hx)).1
  have hinW : ∀ x ∈ subset, x ∈ LinearMap.ker (dotMap u) := by
    intro x hx
    have := (List.mem_filter.mp (hsub2 x hx)).2
    rw [decide_eq_true_eq] at this
    rw [LinearMap.mem_ker, dotMap_apply]
    exact this
  have hspan_le : Submodule.span (ZMod q) {y : Vec q n | y ∈ subset} ≤
      LinearMap.ker (dotMap u) := by
    rw [Submodule.span_le]
    intro x hx
    exact hinW x hx
  have hkrank : Module.finrank (ZMod q) (LinearMap.ker (dotMap u)) = dimension := by
    rw [finrank_ker_dotMap hu, hn]
    omega
  have hr2 : dimension ≤
      Module.finrank (ZMod q) (Submodule.span (ZMod q) {y : Vec q n | y ∈ subset}) := by
    rw [← matRank_eq_finrank_mem]
    exact hrank
  refine ⟨u, hu, hdots, hdotl, hmemall, ?_⟩
  refine Submodule.eq_of_le_of_finrank_le hspan_le ?_
  rw [hkrank]
  exact hr2

/-- The `dimension == 2` branch: the full dual hyperplane minus the secret
still spans the hyperplane. -/
lemma gss_dim2_branch {q n : ℕ} [hq : Fact q.Prime] {secret_line : List (Vec q n)}
    {secret : Vec q n}
    (hline : ∀ p ∈ secret_line, p ∈ allPoints q n) (hn : n = 3) {idx : ℕ}
    (hidx : idx ∈ find_hyperplanes_for_secret_line (all_hyperplaines (allPoints q n))
      secret_line secret) :
    GoodSplit q n secret_line secret
      (((all_hyperplaines (allPoints q n)).getD idx []).erase secret) := by
  haveI : NeZero q := ⟨hq.out.ne_zero⟩
  obtain ⟨u, hu, hgetD, hdots, hdotl⟩ := cut_idx_facts hline hidx
  have hkrank : Module.finrank (ZMod q) (LinearMap.ker (dotMap u)) = 2 := by
    rw [finrank_ker_dotMap hu, hn]
  refine ⟨u, hu, hdots, hdotl, ?_, ?_⟩
  · intro x hx
    rw [hgetD] at hx
    exact (List.mem_filter.mp (List.mem_of_mem_erase hx)).1
  · rw [hgetD]
    exact span_dual_erase secret hkrank

/-- Main induction over the retry oracle: whatever the randomness and however
the store has been mutated by earlier attempts, every splitter list returned
by `get_secret_splitter` (for `dimension ≠ 2`) spans a candidate dual
hyperplane. -/
lemma gss_ok_good {q n : ℕ} [hq : Fact q.Prime] {secret_line : List (Vec q n)}
    {secret : Vec q n} {dimension : ℕ}
    (hline : ∀ p ∈ secret_line, p ∈ allPoints q n) (hn : n = dimension + 1)
    (hd2 : dimension ≠ 2) :
    ∀ (oracle : List (ℕ × List ℕ)) (store : List (List (Vec q n))),
      (∀ i : ℕ, (∀ x ∈ store.getD i [], x ∈ (all_hyperplaines (allPoints q n)).getD i []) ∧
        (store.getD i []).Nodup) →
      ∀ (spl : List (Vec q n)) (store2 : List (List (Vec q n))),
        get_secret_splitter store
          (find_hyperplanes_for_secret_line (all_hyperplaines (allPoints q n)) secret_line)
          secret dimension oracle = (.ok spl, store2) →
        GoodSplit q n secret_line secret spl := by
  haveI : NeZero q := ⟨hq.out.ne_zero⟩
  intro oracle
  induction oracle with
  | nil =>
    intro store hInv spl store2 hres
    rw [get_secret_splitter] at hres
    by_cases hempty : (find_hyperplanes_for_secret_line (all_hyperplaines (allPoints q n))
        secret_line secret).isEmpty
    · rw [if_pos hempty] at hres
      exact absurd hres (by simp)
    · rw [if_neg hempty] at hres
      exact absurd hres (by simp)
  | cons head rest ih =>
    intro store hInv spl store2 hres
    obtain ⟨ri, σ⟩ := head
    rw [get_secret_splitter] at hres
    by_cases hempty : (find_hyperplanes_for_secret_line (all_hyperplaines (allPoints q n))
        secret_line secret).isEmpty
    · rw [if_pos hempty] at hres
      exact absurd hres (by simp)
    rw [if_neg hempty] at hres
    rw [if_neg hd2] at hres
    have hrefs_ne : find_hyperplanes_for_secret_line (all_hyperplaines (allPoints q n))
        secret_line secret ≠ [] := by
      intro h
      rw [h] at hempty
      simp at hempty
    have hlen_pos : 0 < (find_hyperplanes_for_secret_line (all_hyperplaines (allPoints q n))
        secret_line secret).length := List.length_pos.mpr hrefs_ne
    have hidx : (find_hyperplanes_for_secret_line (all_hyperplaines (allPoints q n))
        secret_line secret).getD
          (ri % (find_hyperplanes_for_secret_line (all_hyperplaines (allPoints q n))
            secret_line secret).length) 0 ∈
        find_hyperplanes_for_secret_line (all_hyperplaines (allPoints q n))
          secret_line secret := by
      rw [List.getD_eq_getElem _ _ (Nat.mod_lt ri hlen_pos)]
      exact List.getElem_mem _
    split at hres
    · -- find_largest returned `.ok subset`
      rename_i subset shuffled hflg
      split at hres
      · -- rank accepted
        rename_i hrank
        rw [Prod.mk.injEq] at hres
        obtain ⟨hspl, -⟩ := hres
        rw [SpRes.ok.injEq] at hspl
        subst hspl
        refine gss_rank_branch hline hn hidx ?_ hflg hrank
        intro x hx
        exact (hInv _).1 x hx
      · -- rank rejected: retry on the mutated store
        refine ih (store.set _ shuffled) ?_ spl store2 hres
        intro i
        rcases getD_set_cases store _ shuffled i with hcase | ⟨hie, hcase⟩
        · rw [hcase]
          exact hInv i
        · subst hie
          rw [hcase]
          have hperm := (flgps_ok_subset hflg).1
          constructor
          · intro x hx
            have hx2 := hperm.mem_iff.mp hx
            exact (hInv _).1 x (List.erase_subset _ _ hx2)
          · refine hperm.nodup_iff.mpr ?_
            exact List.Nodup.erase secret (hInv _).2
    · -- find_largest raised IndexError
      exact absurd hres (by simp)
    · -- find_largest ran out of fuel (impossible for its shape, but the match
      -- arm exists in the model)
      exact absurd hres (by simp)

lemma map_normalize_self {q n : ℕ} {l : List (Vec q n)} (h : ∀ x ∈ l, normalize x = x) :
    l.map normalize = l := by
  induction l with
  | nil => rfl
  | cons a t ih =>
    rw [List.map_cons, h a (List.mem_cons_self a t),
      ih (fun x hx => h x (List.mem_cons_of_mem a hx))]

lemma line_subset_allPoints {q n : ℕ} [hq : Fact q.Prime] {p1 p2 : Vec q n}
    (h1 : normalize p1 = p1) (h1z : p1 ≠ 0) (h2 : normalize p2 = p2) (h2z : p2 ≠ 0)
    (hne : p1 ≠ p2) : ∀ p ∈ points_on_line p1 p2, p ∈ allPoints q n := by
  haveI : NeZero q := ⟨hq.out.ne_zero⟩
  intro p hp
  obtain ⟨z, a, hcond, rfl⟩ := (mem_points_on_line p1 p2 p).mp hp
  have hcz : z • p1 + a • p2 ≠ 0 := combo_ne_zero h1 h1z h2 h2z hne z a (by tauto)
  rw [mem_allPoints_iff]
  exact ⟨normalize_ne_zero hcz, normalize_normalize _⟩

/-- Decrypting any splitter list that spans a candidate dual hyperplane (the
guarantee of `get_secret_splitter`) against the original secret line recovers
exactly the secret. -/
lemma decrypt_of_goodsplit {q n : ℕ} [hq : Fact q.Prime] {secret second : Vec q n}
    {spl : List (Vec q n)} {dimension : ℕ}
    (hn : n = dimension + 1) (hd : 2 ≤ dimension)
    (hsec : secret ∈ allPoints q n) (hsecd : second ∈ allPoints q n) (hne : secret ≠ second)
    (hgood : GoodSplit q n (points_on_line secret second) secret spl) :
    t_threshold_decrypt spl (points_on_line secret second) = .secretSet {secret} := by
  haveI : NeZero q := ⟨hq.out.ne_zero⟩
  obtain ⟨hsz, hsn⟩ := mem_allPoints_iff.mp hsec
  obtain ⟨hdz, hdn⟩ := mem_allPoints_iff.mp hsecd
  obtain ⟨u, hu, hdots, hdotl, hsplall, hspan⟩ := hgood
  have hq2 : 2 ≤ q := hq.out.two_le
  have hlen : (points_on_line secret second).length = q + 1 :=
    points_on_line_length hsn hsz hdn hdz hne
  have hline_all := line_subset_allPoints hsn hsz hdn hdz hne
  have hspl_all : ∀ x ∈ spl, x ≠ 0 ∧ normalize x = x := by
    intro x hx
    exact mem_allPoints_iff.mp (hsplall x hx)
  -- the number of shares is at least the dimension
  have hrange_eq : Set.range spl.get = {y : Vec q n | y ∈ spl} := range_get_eq spl
  have hsplen : dimension ≤ spl.length := by
    have h1 := finrank_span_le_length spl
    rw [hrange_eq, hspan, finrank_ker_dotMap hu] at h1
    omega
  -- the validations pass
  have hdec := t_threshold_decrypt_success spl (points_on_line secret second)
    (by rw [hlen]; omega) (by omega) (by omega) (by omega)
    (by rw [hlen]; simpa using hq.out)
    (fun v hv => (hspl_all v hv).1)
    (fun v hv => (mem_allPoints_iff.mp (hline_all v hv)).1)
  rw [map_normalize_self (fun x hx => (hspl_all x hx).2),
    map_normalize_self (fun x hx => (mem_allPoints_iff.mp (hline_all x hx)).2)] at hdec
  rw [hdec]
  -- identify the intersection with the singleton of the secret
  refine congrArg DecOut.secretSet ?_
  have hWL : LinearMap.ker (dotMap u) ⊓ Submodule.span (ZMod q) {secret, second} =
      Submodule.span (ZMod q) {secret} := by
    -- a point of the line outside the hyperplane
    obtain ⟨p0, hp0line, hp0dot⟩ := hdotl
    obtain ⟨z0, a0, hcond0, hp0⟩ := (mem_points_on_line secret second p0).mp hp0line
    have hc0z : z0 • secret + a0 • second ≠ 0 :=
      combo_ne_zero hsn hsz hdn hdz hne z0 a0 (by tauto)
    obtain ⟨c0, hc0, hcv0⟩ := normalize_eq_smul hc0z
    have hp0L : p0 ∈ Submodule.span (ZMod q) {secret, second} := by
      rw [hp0, hcv0]
      refine Submodule.smul_mem _ c0 ?_
      rw [Submodule.mem_span_pair]
      exact ⟨z0, a0, rfl⟩
    have hp0W : p0 ∉ LinearMap.ker (dotMap u) := by
      rw [LinearMap.mem_ker, dotMap_apply]
      exact hp0dot
    have hsecW : secret ∈ LinearMap.ker (dotMap u) := by
      rw [LinearMap.mem_ker, dotMap_apply]
      exact hdots
    have hsecL : secret ∈ Submodule.span (ZMod q) {secret, second} := by
      rw [Submodule.mem_span_pair]
      exact ⟨1, 0, by rw [one_smul, zero_smul, add_zero]⟩
    have hle : Submodule.span (ZMod q) {secret} ≤
        LinearMap.ker (dotMap u) ⊓ Submodule.span (ZMod q) {secret, second} := by
      rw [Submodule.span_le, Set.singleton_subset_iff]
      exact ⟨hsecW, hsecL⟩
    have hlt : LinearMap.ker (dotMap u) ⊓ Submodule.span (ZMod q) {secret, second} <
        Submodule.span (ZMod q) {secret, second} := by
      refine lt_of_le_of_ne inf_le_right ?_
      intro heq
      have := heq ▸ hp0L
      exact hp0W (this.1)
    have hfr2 : Module.finrank (ZMod q) (Submodule.span (ZMod q) {secret, second}) = 2 :=
      finrank_span_pair hsn hsz hdn hdz hne
    have hfrlt : Module.finrank (ZMod q)
        ((LinearMap.ker (dotMap u) ⊓ Submodule.span (ZMod q) {secret, second} :
          Submodule (ZMod q) (Vec q n))) < 2 := by
      rw [← hfr2]
      exact Submodule.finrank_lt_finrank_of_lt hlt
    have hfr1 : Module.finrank (ZMod q) (Submodule.span (ZMod q) {secret}) = 1 :=
      finrank_span_singleton hsz
    refine (Submodule.eq_of_le_of_finrank_le hle ?_).symm
    rw [hfr1]
    omega
  refine Finset.ext ?_
  intro x
  rw [mem_intersect, Finset.mem_singleton]
  constructor
  · rintro ⟨hxR, hxline⟩
    obtain ⟨v, hvspan, hvz, hxv⟩ :=
      (mem_reconstruct_iff spl hspl_all x).mp hxR
    rw [hspan] at hvspan
    obtain ⟨zx, ax, hcondx, hxw⟩ := (mem_points_on_line secret second x).mp hxline
    have hwz : zx • secret + ax • second ≠ 0 :=
      combo_ne_zero hsn hsz hdn hdz hne zx ax (by tauto)
    obtain ⟨cw, hcw, hcvw⟩ := normalize_eq_smul hwz
    have hxW : x ∈ LinearMap.ker (dotMap u) := by
      obtain ⟨cv, hcv, hcvv⟩ := normalize_eq_smul hvz
      rw [hxv, hcvv]
      exact Submodule.smul_mem _ cv hvspan
    have hxL : x ∈ Submodule.span (ZMod q) {secret, second} := by
      rw [hxw, hcvw]
      refine Submodule.smul_mem _ cw ?_
      rw [Submodule.mem_span_pair]
      exact ⟨zx, ax, rfl⟩
    have hxWL : x ∈ Submodule.span (ZMod q) {secret} := by
      rw [← hWL]
      exact ⟨hxW, hxL⟩
    obtain ⟨cs, hcs⟩ := Submodule.mem_span_singleton.mp hxWL
    have hxz : x ≠ 0 := by
      rw [hxv]
      exact normalize_ne_zero hvz
    have hcsz : cs ≠ 0 := by
      intro h0
      rw [h0, zero_smul] at hcs
      exact hxz hcs.symm
    have hxcan : normalize x = x := by
      rw [hxv]
      exact normalize_normalize v
    rw [← hxcan, ← hcs, normalize_smul hcsz, hsn]
  · intro hx
    subst hx
    constructor
    · rw [mem_reconstruct_iff spl hspl_all]
      refine ⟨x, ?_, hsz, hsn.symm⟩
      rw [hspan, LinearMap.mem_ker, dotMap_apply]
      exact hdots
    · rw [mem_points_on_line]
      refine ⟨1, 0, Or.inr one_ne_zero, ?_⟩
      rw [one_smul, zero_smul, add_zero, hsn]

lemma get_secret_splitter_dim2 {q n : ℕ} (store : List (List (Vec q n)))
    (cut : Vec q n → List ℕ) (secret : Vec q n) (ri : ℕ) (σ : List ℕ)
    (rest : List (ℕ × List ℕ)) (hne : ¬ (cut secret).isEmpty = true) :
    get_secret_splitter store cut secret 2 ((ri, σ) :: rest) =
      (.ok ((store.getD ((cut secret).getD (ri % (cut secret).length) 0) []).erase secret),
        store.set ((cut secret).getD (ri % (cut secret).length) 0)
          ((store.getD ((cut secret).getD (ri % (cut secret).length) 0) []).erase secret)) := by
  rw [get_secret_splitter, if_neg hne]
  rfl

lemma find_point_ok {q n : ℕ} {secret : Vec q n} {points : List (Vec q n)} {r2 : ℕ}
    {second : Vec q n}
    (h : find_point_for_secret_line secret points r2 = some second) :
    second ∈ points ∧ second ≠ secret ∧ points ≠ [] := by
  rw [find_point_for_secret_line] at h
  by_cases he : (points.filter
      (fun point => decide (point ≠ secret ∧ ∃ i, point i = secret i))).isEmpty
  · rw [if_pos he] at h
    exact absurd h (by simp)
  · rw [if_neg he] at h
    have hnil : points.filter
        (fun point => decide (point ≠ secret ∧ ∃ i, point i = secret i)) ≠ [] := by
      intro h0
      rw [h0] at he
      simp at he
    have hlen := List.length_pos.mpr hnil
    have hmem : (points.filter
        (fun point => decide (point ≠ secret ∧ ∃ i, point i = secret i))).getD
          (r2 % (points.filter
            (fun point => decide (point ≠ secret ∧ ∃ i, point i = secret i))).length) 0 ∈
        points.filter (fun point => decide (point ≠ secret ∧ ∃ i, point i = secret i)) := by
      rw [List.getD_eq_getElem _ _ (Nat.mod_lt _ hlen)]
      exact List.getElem_mem _
    rw [Option.some.injEq] at h
    rw [h] at hmem
    have hm := List.mem_filter.mp hmem
    have hprops := of_decide_eq_true hm.2
    exact ⟨hm.1, hprops.1, List.ne_nil_of_mem hm.1⟩

lemma t_threshold_encrypt_ok {dimension order r1 r2 : ℕ} {attempts : List (ℕ × List ℕ)}
    {secret : Vec order (dimension + 1)} {secret_line spl : List (Vec order (dimension + 1))}
    (h : t_threshold_encrypt dimension order r1 r2 attempts = .ok secret secret_line spl) :
    1 < order ∧ 1 < dimension ∧ Nat.Prime order ∧
      secret ∈ allPoints order (dimension + 1) ∧
      ∃ second ∈ allPoints order (dimension + 1), second ≠ secret ∧
        secret_line = points_on_line secret second ∧
        ∃ store2 : List (List (Vec order (dimension + 1))),
          get_secret_splitter (all_hyperplaines (allPoints order (dimension + 1)))
            (find_hyperplanes_for_secret_line
              (all_hyperplaines (allPoints order (dimension + 1))) secret_line)
            secret dimension attempts = (.ok spl, store2) := by
  rw [t_threshold_encrypt] at h
  by_cases hg1 : order ≤ 1 ∨ dimension ≤ 1
  · rw [if_pos hg1] at h
    exact absurd h (by simp)
  rw [if_neg hg1] at h
  by_cases hg2 : ¬ (sage_is_prime order = true)
  · rw [if_pos hg2] at h
    exact absurd h (by simp)
  rw [if_neg hg2] at h
  rw [not_not, sage_is_prime_iff] at hg2
  push_neg at hg1
  dsimp only [] at h
  split at h
  · exact absurd h (by simp)
  · rename_i second hfp
    obtain ⟨hsmem, hsne, hpne⟩ := find_point_ok hfp
    have hplen := List.length_pos.mpr hpne
    have hsec_mem : (allPoints order (dimension + 1)).getD
        (r1 % (allPoints order (dimension + 1)).length) 0 ∈
        allPoints order (dimension + 1) := by
      rw [List.getD_eq_getElem _ _ (Nat.mod_lt _ hplen)]
      exact List.getElem_mem _
    split at h
    · rename_i spl2 store2 hgss
      rw [EncOut.ok.injEq] at h
      obtain ⟨hsec_eq, hline_eq, hspl_eq⟩ := h
      subst hsec_eq
      subst hline_eq
      subst hspl_eq
      refine ⟨by omega, by omega, hg2, hsec_mem, second, hsmem, hsne, rfl, store2, hgss⟩
    · exact absurd h (by simp)
    · exact absurd h (by simp)

lemma all_hyperplaines_getD_nodup {q n : ℕ} (i : ℕ) :
    ((all_hyperplaines (allPoints q n)).getD i []).Nodup := by
  by_cases hi : i < (all_hyperplaines (allPoints q n)).length
  · rw [all_hyperplaines_length] at hi
    rw [all_hyperplaines_getD _ _ hi]
    exact (allPoints_nodup).filter _
  · rw [List.getD_eq_default]
    · exact List.nodup_nil
    · omega

/-- Every successful encryption run produces a secret that is a space point, a
line through it and a second space point, and a splitter list spanning a
candidate dual hyperplane. -/
lemma encrypt_ok_goodsplit {dimension order r1 r2 : ℕ} {attempts : List (ℕ × List ℕ)}
    {secret : Vec order (dimension + 1)} {secret_line spl : List (Vec order (dimension + 1))}
    (h : t_threshold_encrypt dimension order r1 r2 attempts = .ok secret secret_line spl) :
    Nat.Prime order ∧ 1 < dimension ∧ secret ∈ allPoints order (dimension + 1) ∧
      (∃ second ∈ allPoints order (dimension + 1), second ≠ secret ∧
        secret_line = points_on_line secret second) ∧
      GoodSplit order (dimension + 1) secret_line secret spl := by
  obtain ⟨ho, hd, hp, hsec, second, hsmem, hsne, hline_eq, store2, hgss⟩ :=
    t_threshold_encrypt_ok h
  haveI : Fact (Nat.Prime order) := ⟨hp⟩
  haveI : NeZero order := ⟨hp.ne_zero⟩
  have hsz := mem_allPoints_iff.mp hsec
  have hdz := mem_allPoints_iff.mp hsmem
  have hline_all : ∀ p ∈ secret_line, p ∈ allPoints order (dimension + 1) := by
    rw [hline_eq]
    exact line_subset_allPoints hsz.2 hsz.1 hdz.2 hdz.1 (fun hcc => hsne hcc.symm)
  refine ⟨hp, hd, hsec, ⟨second, hsmem, hsne, hline_eq⟩, ?_⟩
  by_cases hd2 : dimension = 2
  · subst hd2
    cases attempts with
    | nil =>
      rw [get_secret_splitter] at hgss
      by_cases hempty : ((find_hyperplanes_for_secret_line
          (all_hyperplaines (allPoints order 3)) secret_line) secret).isEmpty
      · rw [if_pos hempty] at hgss
        exact absurd hgss (by simp)
      · rw [if_neg hempty] at hgss
        exact absurd hgss (by simp)
    | cons head rest =>
      obtain ⟨ri, σ⟩ := head
      by_cases hempty : ((find_hyperplanes_for_secret_line
          (all_hyperplaines (allPoints order 3)) secret_line) secret).isEmpty
      · rw [get_secret_splitter, if_pos hempty] at hgss
        exact absurd hgss (by simp)
      · rw [get_secret_splitter_dim2 _ _ _ _ _ _ hempty] at hgss
        rw [Prod.mk.injEq] at hgss
        obtain ⟨hspl, -⟩ := hgss
        rw [SpRes.ok.injEq] at hspl
        have hrefs_ne : find_hyperplanes_for_secret_line
            (all_hyperplaines (allPoints order 3)) secret_line secret ≠ [] := by
          intro h0
          rw [h0] at hempty
          simp at hempty
        have hlen_pos := List.length_pos.mpr hrefs_ne
        have hidx : (find_hyperplanes_for_secret_line
            (all_hyperplaines (allPoints order 3)) secret_line secret).getD
              (ri % (find_hyperplanes_for_secret_line
                (all_hyperplaines (allPoints order 3)) secret_line secret).length) 0 ∈
            find_hyperplanes_for_secret_line
              (all_hyperplaines (allPoints order 3)) secret_line secret := by
          rw [List.getD_eq_getElem _ _ (Nat.mod_lt ri hlen_pos)]
          exact List.getElem_mem _
        rw [← hspl]
        exact gss_dim2_branch hline_all rfl hidx
  · refine gss_ok_good hline_all rfl hd2 attempts
      (all_hyperplaines (allPoints order (dimension + 1))) ?_ spl store2 hgss
    intro i
    exact ⟨fun x hx => hx, all_hyperplaines_getD_nodup i⟩

/-- The shuffled pool returned alongside either outcome of
`find_largest_general_position_subset` is the in-place shuffle of the input
pool. -/
lemma flgps_snd {q n : ℕ} (sp : List (Vec q n)) (secret : Vec q n) (σ : List ℕ) :
    (find_largest_general_position_subset sp secret σ).2 = applyPerm σ sp := by
  rw [find_largest_general_position_subset]
  rcases happ : applyPerm σ sp with _ | ⟨s0, t⟩ <;> rfl

/-- A full concrete evaluation of the encryption engine with `q = 2`,
`dimension = 2` and the zero randomness oracle (used to instantiate the
claims below on a real run). -/
lemma encrypt_concrete_eval : t_threshold_encrypt 2 2 0 0 [(0, [])] =
    EncOut.ok ![0,0,1] [![0,1,0], ![0,0,1], ![0,1,1]] [![1,0,0], ![1,0,1]] := by
  have hs : ((allPoints 2 (2 + 1)).getD (0 % (allPoints 2 (2 + 1)).length) 0 :
      Vec 2 (2 + 1)) = ![0,0,1] := by decide
  have h2 : find_point_for_secret_line (![0,0,1] : Vec 2 (2 + 1)) (allPoints 2 (2 + 1)) 0
      = some ![0,1,0] := by decide
  have hl : points_on_line (![0,0,1] : Vec 2 (2 + 1)) ![0,1,0]
      = [![0,1,0], ![0,0,1], ![0,1,1]] := by decide
  rw [t_threshold_encrypt, if_neg (by decide), if_neg (by decide)]
  dsimp only []
  rw [hs, h2]
  dsimp only []
  rw [hl]
  decide

/-! ### The claims -/

/-- C1: Round-trip — for every honestly generated output of encryption
(secret point, secret line, splitter set) for a valid dimension > 1 and prime
q, running the decryption engine on the splitter set and the secret line
returns exactly the original secret point (as the printed singleton
intersection set). -/
theorem claim_C1_roundtrip (dimension order r1 r2 : ℕ) (attempts : List (ℕ × List ℕ))
    (secret : Vec order (dimension + 1)) (secret_line spl : List (Vec order (dimension + 1)))
    (h : t_threshold_encrypt dimension order r1 r2 attempts = .ok secret secret_line spl) :
    t_threshold_decrypt spl secret_line = .secretSet {secret} := by
  obtain ⟨hp, hd, hsec, ⟨second, hsmem, hsne, hline_eq⟩, hgood⟩ := encrypt_ok_goodsplit h
  haveI : Fact (Nat.Prime order) := ⟨hp⟩
  subst hline_eq
  exact decrypt_of_goodsplit rfl (by omega) hsec hsmem (fun hc => hsne hc.symm) hgood

/-- C1 witness: a complete concrete run with `q = 2`, `dimension = 2`. -/
theorem claim_C1_roundtrip_witness :
    t_threshold_decrypt ([![1,0,0], ![1,0,1]] : List (Vec 2 3))
      [![0,1,0], ![0,0,1], ![0,1,1]] = .secretSet {![0,0,1]} :=
  claim_C1_roundtrip 2 2 0 0 [(0, [])] ![0,0,1]
    [![0,1,0], ![0,0,1], ![0,1,1]] [![1,0,0], ![1,0,1]] encrypt_concrete_eval

/-- C2 counterexample: a decryption run that passes every guard, whose
intersection set holds three points, and whose output is the plain
`decrypted secret` print of that whole three-point set — no distinct error is
reported for the ambiguous (more-than-one-point) case. -/
theorem claim_C2_singleton_contract_cex :
    t_threshold_decrypt ([![1,0,0], ![0,1,0], ![0,0,1]] : List (Vec 2 3))
        [![0,1,0], ![0,0,1], ![0,1,1]] =
      .secretSet {![0,1,0], ![0,0,1], ![0,1,1]} ∧
    ({![0,1,0], ![0,0,1], ![0,1,1]} : Finset (Vec 2 3)).card = 3 := by
  refine ⟨?_, by decide⟩
  rw [t_threshold_decrypt_success [![1,0,0], ![0,1,0], ![0,0,1]]
    [![0,1,0], ![0,0,1], ![0,1,1]] (by decide) (by decide) (by decide) (by decide)
    Nat.prime_two (by decide) (by decide)]
  refine congrArg DecOut.secretSet (Finset.ext_iff.mpr ?_)
  decide

/-- C2 (amended): once the input guards pass, `t_threshold_decrypt` always
prints the full intersection of the reconstructed closure with the secret
line as the decrypted secret, whatever its cardinality; singleton, empty and
ambiguous intersections are all reported through the same `secretSet` outcome
and no distinct error exists for the non-singleton cases. -/
theorem claim_C2_intersection_reported {q n : ℕ}
    (splitted_secrets secret_line : List (Vec q n))
    (ho : 1 < secret_line.length - 1) (hd : 1 < n - 1)
    (hs1 : 1 < splitted_secrets.length) (hs : ¬ splitted_secrets.length < n - 1)
    (hp : Nat.Prime (secret_line.length - 1))
    (hz1 : ∀ v ∈ splitted_secrets, v ≠ 0) (hz2 : ∀ v ∈ secret_line, v ≠ 0) :
    t_threshold_decrypt splitted_secrets secret_line =
      .secretSet (intersect_hyperplane_w_secret_line
        (reconstruct_hyperplane (splitted_secrets.map normalize))
        (secret_line.map normalize)) :=
  t_threshold_decrypt_success splitted_secrets secret_line ho hd hs1 hs hp hz1 hz2

/-- C2 witness: the amended theorem instantiated on the three-share run. -/
theorem claim_C2_intersection_reported_witness :
    t_threshold_decrypt ([![1,0,0], ![0,1,0], ![0,0,1]] : List (Vec 2 3))
        [![0,1,0], ![0,0,1], ![0,1,1]] =
      .secretSet (intersect_hyperplane_w_secret_line
        (reconstruct_hyperplane (([![1,0,0], ![0,1,0], ![0,0,1]] :
          List (Vec 2 3)).map normalize))
        (([![0,1,0], ![0,0,1], ![0,1,1]] : List (Vec 2 3)).map normalize)) :=
  claim_C2_intersection_reported [![1,0,0], ![0,1,0], ![0,0,1]]
    [![0,1,0], ![0,0,1], ![0,1,1]] (by decide) (by decide) (by decide) (by decide)
    Nat.prime_two (by decide) (by decide)

/-- C3 counterexample: a decryption call with two shares in dimension three
prints the share-count message — there is no `ReconstructionAmbiguousError`
anywhere in the program, so the claimed error name is never reported. -/
theorem claim_C3_few_shares_cex :
    t_threshold_decrypt ([![1,0,0,0], ![0,1,0,0]] : List (Vec 2 4))
        [![0,0,0,1], ![0,0,1,0], ![0,0,1,1]] = .msg decMsgCount ∧
    ∀ s : Finset (Vec 2 4), (DecOut.msg decMsgCount : DecOut 2 4) ≠ .secretSet s := by
  refine ⟨by decide, fun s h => ?_⟩
  cases h

/-- C3 (amended): on fewer than `dimension` shares the decryption engine never
returns a point set — it raises `IndexError` on an empty line or prints one of
the two parameter-validation messages. -/
theorem claim_C3_few_shares_message {q n : ℕ}
    (splitted_secrets secret_line : List (Vec q n))
    (h : splitted_secrets.length < n - 1) :
    t_threshold_decrypt splitted_secrets secret_line = .exn "IndexError" ∨
    t_threshold_decrypt splitted_secrets secret_line = .msg decMsgDim ∨
    t_threshold_decrypt splitted_secrets secret_line = .msg decMsgCount := by
  rw [t_threshold_decrypt]
  by_cases he : secret_line.isEmpty = true
  · rw [if_pos he]
    exact Or.inl rfl
  rw [if_neg he]
  dsimp only []
  by_cases hg : secret_line.length - 1 ≤ 1 ∨ n - 1 ≤ 1 ∨ splitted_secrets.length ≤ 1
  · rw [if_pos hg]
    exact Or.inr (Or.inl rfl)
  · rw [if_neg hg, if_pos h]
    exact Or.inr (Or.inr rfl)

/-- C3 witness: the amended theorem instantiated on the two-share run. -/
theorem claim_C3_few_shares_message_witness :
    t_threshold_decrypt ([![1,0,0,0], ![0,1,0,0]] : List (Vec 2 4))
        [![0,0,0,1], ![0,0,1,0], ![0,0,1,1]] = .exn "IndexError" ∨
    t_threshold_decrypt ([![1,0,0,0], ![0,1,0,0]] : List (Vec 2 4))
        [![0,0,0,1], ![0,0,1,0], ![0,0,1,1]] = .msg decMsgDim ∨
    t_threshold_decrypt ([![1,0,0,0], ![0,1,0,0]] : List (Vec 2 4))
        [![0,0,0,1], ![0,0,1,0], ![0,0,1,1]] = .msg decMsgCount :=
  claim_C3_few_shares_message [![1,0,0,0], ![0,1,0,0]]
    [![0,0,0,1], ![0,0,1,0], ![0,0,1,1]] (by decide)

/-- C4 counterexample: with an empty candidate list for the secret, splitter
selection ends in the unstructured `ValueError` that `random.randint(0, -1)`
raises — no `NoCandidateHyperplaneError` exists in the program. -/
theorem claim_C4_empty_candidates_cex :
    get_secret_splitter ([] : List (List (Vec 2 3))) (fun v => ([] : List ℕ))
      (fun i => (0 : ZMod 2)) 2 [(0, [])] = (.exn "ValueError", []) := rfl

/-- C4 (amended): whenever the secret's candidate list is empty, splitter
selection fails with the `ValueError` raised by `random.randint(0, -1)` — not
with a structured `NoCandidateHyperplaneError` and not with an out-of-range
indexing error. -/
theorem claim_C4_empty_candidates_valueerror {q n : ℕ} (store : List (List (Vec q n)))
    (cut : Vec q n → List ℕ) (secret : Vec q n) (dimension : ℕ)
    (oracle : List (ℕ × List ℕ)) (h : cut secret = []) :
    (get_secret_splitter store cut secret dimension oracle).1 = .exn "ValueError" := by
  have hcond : (cut secret).isEmpty = true := by rw [h]; rfl
  cases oracle with
  | nil =>
    rw [get_secret_splitter, if_pos hcond]
  | cons a rest =>
    obtain ⟨ri, σ⟩ := a
    rw [get_secret_splitter, if_pos hcond]

/-- C4 witness: the amended theorem instantiated on a nonempty store with an
unconsumed oracle. -/
theorem claim_C4_empty_candidates_valueerror_witness :
    (get_secret_splitter ([[![1,0,0]]] : List (List (Vec 2 3))) (fun v => ([] : List ℕ))
      (fun i => (0 : ZMod 2)) 3 []).1 = .exn "ValueError" :=
  claim_C4_empty_candidates_valueerror [[![1,0,0]]] (fun v => ([] : List ℕ))
    (fun i => (0 : ZMod 2)) 3 [] rfl

/-- C5: for two distinct canonical projective points over `GF(q)` (`q` prime)
the line construction returns exactly `q + 1` pairwise distinct canonical
points. -/
theorem claim_C5_line_count {q n : ℕ} [Fact q.Prime] (p1 p2 : Vec q n)
    (h1 : normalize p1 = p1) (h1z : p1 ≠ 0) (h2 : normalize p2 = p2) (h2z : p2 ≠ 0)
    (hne : p1 ≠ p2) :
    (points_on_line p1 p2).length = q + 1 ∧ (points_on_line p1 p2).Nodup ∧
      ∀ y ∈ points_on_line p1 p2, y ∈ allPoints q n :=
  ⟨points_on_line_length h1 h1z h2 h2z hne, points_on_line_nodup p1 p2,
    line_subset_allPoints h1 h1z h2 h2z hne⟩

/-- C5 witness: the projective line through `(0:1:0)` and `(0:0:1)` over
`GF(2)` has `2 + 1` points. -/
theorem claim_C5_line_count_witness :
    (points_on_line (![0,1,0] : Vec 2 3) ![0,0,1]).length = 2 + 1 ∧
      (points_on_line (![0,1,0] : Vec 2 3) ![0,0,1]).Nodup ∧
      ∀ y ∈ points_on_line (![0,1,0] : Vec 2 3) ![0,0,1], y ∈ allPoints 2 3 :=
  @claim_C5_line_count 2 3 ⟨Nat.prime_two⟩ ![0,1,0] ![0,0,1]
    (by decide) (by decide) (by decide) (by decide) (by decide)

/-- C6: in the `dimension == 2` branch, the splitter returned by
`get_secret_splitter` is exactly the randomly chosen hyperplane's point list
with the secret removed — no general-position filtering and no rank check is
applied. -/
theorem claim_C6_dim2_branch {q n : ℕ} (store : List (List (Vec q n)))
    (cut : Vec q n → List ℕ) (secret : Vec q n) (ri : ℕ) (σ : List ℕ)
    (rest : List (ℕ × List ℕ)) (hne : ¬ (cut secret).isEmpty = true) :
    (get_secret_splitter store cut secret 2 ((ri, σ) :: rest)).1 =
      .ok ((store.getD ((cut secret).getD (ri % (cut secret).length) 0) []).erase secret) := by
  rw [get_secret_splitter_dim2 store cut secret ri σ rest hne]

/-- C6 witness: the branch theorem instantiated on the real hyperplane store
over `GF(2)` in dimension 2. -/
theorem claim_C6_dim2_branch_witness :
    (get_secret_splitter (all_hyperplaines (allPoints 2 3))
        (find_hyperplanes_for_secret_line (all_hyperplaines (allPoints 2 3))
          [![0,1,0], ![0,0,1], ![0,1,1]])
        ![0,0,1] 2 [(0, [])]).1 =
      .ok (((all_hyperplaines (allPoints 2 3)).getD
          ((find_hyperplanes_for_secret_line (all_hyperplaines (allPoints 2 3))
              [![0,1,0], ![0,0,1], ![0,1,1]] ![0,0,1]).getD
            (0 % (find_hyperplanes_for_secret_line (all_hyperplaines (allPoints 2 3))
              [![0,1,0], ![0,0,1], ![0,1,1]] ![0,0,1]).length) 0) []).erase ![0,0,1]) :=
  claim_C6_dim2_branch (all_hyperplaines (allPoints 2 3))
    (find_hyperplanes_for_secret_line (all_hyperplaines (allPoints 2 3))
      [![0,1,0], ![0,0,1], ![0,1,1]])
    ![0,0,1] 0 [] [] (by decide)

/-- C7: every splitter list the encryption engine actually outputs has linear
rank over `GF(q)` at least `dimension` (the `dimension == 2` branch included:
there the splitter spans the chosen dual hyperplane, a plane of rank 2). -/
theorem claim_C7_rank_at_least_dimension (dimension order r1 r2 : ℕ)
    (attempts : List (ℕ × List ℕ)) (secret : Vec order (dimension + 1))
    (secret_line spl : List (Vec order (dimension + 1)))
    (h : t_threshold_encrypt dimension order r1 r2 attempts = .ok secret secret_line spl) :
    dimension ≤ matRank spl := by
  obtain ⟨hp, hd, hsec, hsecond, hgood⟩ := encrypt_ok_goodsplit h
  haveI : Fact (Nat.Prime order) := ⟨hp⟩
  obtain ⟨u, hu, husec, hup, hall, hspan⟩ := hgood
  rw [matRank_eq_finrank_mem, hspan, finrank_ker_dotMap hu]
  omega

/-- C7 witness: the rank bound instantiated on the concrete `q = 2`,
`dimension = 2` encryption run. -/
theorem claim_C7_rank_at_least_dimension_witness :
    2 ≤ matRank ([![1,0,0], ![1,0,1]] : List (Vec 2 3)) :=
  claim_C7_rank_at_least_dimension 2 2 0 0 [(0, [])] ![0,0,1]
    [![0,1,0], ![0,0,1], ![0,1,1]] [![1,0,0], ![1,0,1]] encrypt_concrete_eval

/-- C8: the span-closure reconstruction terminates on every finite input list:
the fuelled recursion (whose fuel exceeds the size of the finite ambient point
set bounding the monotone growth) reaches a genuine fixed point of the
line-adding pass, and the input points are all retained in the result. -/
theorem claim_C8_closure_terminates {q n : ℕ} [NeZero q] (l : List (Vec q n)) :
    passOnce (reconstruct_hyperplane l) = reconstruct_hyperplane l ∧
      ∀ x ∈ l, x ∈ reconstruct_hyperplane l :=
  ⟨reconstruct_hyperplane_fix l, fun x hx => mem_reconstruct_of_mem l x hx⟩

/-- C8 witness: the termination theorem instantiated on a two-point basis of
the projective line over `GF(2)`. -/
theorem claim_C8_closure_terminates_witness :
    (passOnce (reconstruct_hyperplane ([![1,0], ![0,1]] : List (Vec 2 2))) =
        reconstruct_hyperplane ([![1,0], ![0,1]] : List (Vec 2 2))) ∧
      ∀ x ∈ ([![1,0], ![0,1]] : List (Vec 2 2)),
        x ∈ reconstruct_hyperplane ([![1,0], ![0,1]] : List (Vec 2 2)) :=
  @claim_C8_closure_terminates 2 2 ⟨by decide⟩ [![1,0], ![0,1]]

/-- C9: span-closure is idempotent — on a list that is already a fixed point
of the line-adding pass, the reconstruction returns that list unchanged. -/
theorem claim_C9_closure_idempotent {q n : ℕ} (l : List (Vec q n))
    (h : passOnce l = l) : reconstruct_hyperplane l = l := by
  rw [reconstruct_hyperplane, reconstructFuel]
  rw [if_pos h]

/-- C9 witness: a one-point list is a fixed point and is returned unchanged. -/
theorem claim_C9_closure_idempotent_witness :
    reconstruct_hyperplane ([![0,1]] : List (Vec 2 2)) = [![0,1]] :=
  claim_C9_closure_idempotent [![0,1]] (by decide)

/-- Unfolding of the non-`dimension == 2` selection step (helper for the
frame analysis of the store mutation). -/
lemma get_secret_splitter_cons_ne2 {q n : ℕ} (store : List (List (Vec q n)))
    (cut : Vec q n → List ℕ) (secret : Vec q n) (dimension : ℕ) (ri : ℕ) (σ : List ℕ)
    (rest : List (ℕ × List ℕ)) (hne : ¬ (cut secret).isEmpty = true)
    (hd2 : ¬ dimension = 2) :
    get_secret_splitter store cut secret dimension ((ri, σ) :: rest) =
      (match find_largest_general_position_subset
          ((store.getD ((cut secret).getD (ri % (cut secret).length) 0) []).erase secret)
          secret σ with
        | (.ok subset, shuffled) =>
          if dimension ≤ matRank subset then
            (.ok subset, store.set ((cut secret).getD (ri % (cut secret).length) 0) shuffled)
          else
            get_secret_splitter
              (store.set ((cut secret).getD (ri % (cut secret).length) 0) shuffled)
              cut secret dimension rest
        | (.exn e, shuffled) =>
          (.exn e, store.set ((cut secret).getD (ri % (cut secret).length) 0) shuffled)
        | (.fuelOut, shuffled) =>
          (.fuelOut, store.set ((cut secret).getD (ri % (cut secret).length) 0) shuffled)) := by
  rw [get_secret_splitter, if_neg hne]
  rw [if_neg hd2]

/-- C10: the selection step mutates the store in place.  When the first drawn
candidate is accepted (always in the `dimension == 2` branch; otherwise when
the general-position search raises or its arc passes the rank test), the
selected hyperplane's list is replaced by a rearrangement of itself with the
secret removed, the secret no longer occurs in it, and every other entry of
the shared store — hence every other candidate reference — is unchanged. -/
theorem claim_C10_store_mutation {q n : ℕ} (store : List (List (Vec q n)))
    (cut : Vec q n → List ℕ) (secret : Vec q n) (dimension : ℕ) (ri : ℕ) (σ : List ℕ)
    (rest : List (ℕ × List ℕ)) (hne : ¬ (cut secret).isEmpty = true)
    (hnd : (store.getD ((cut secret).getD (ri % (cut secret).length) 0) []).Nodup)
    (hnr : ¬ (dimension ≠ 2 ∧ ∃ subset shuffled,
      find_largest_general_position_subset
          ((store.getD ((cut secret).getD (ri % (cut secret).length) 0) []).erase secret)
          secret σ = (.ok subset, shuffled) ∧ matRank subset < dimension)) :
    ∃ newl,
      (get_secret_splitter store cut secret dimension ((ri, σ) :: rest)).2 =
        store.set ((cut secret).getD (ri % (cut secret).length) 0) newl ∧
      newl.Perm ((store.getD ((cut secret).getD (ri % (cut secret).length) 0) []).erase
        secret) ∧
      secret ∉ newl ∧
      ∀ j, j ≠ (cut secret).getD (ri % (cut secret).length) 0 →
        (store.set ((cut secret).getD (ri % (cut secret).length) 0) newl).getD j [] =
          store.getD j [] := by
  have hframe : ∀ newl : List (Vec q n),
      ∀ j, j ≠ (cut secret).getD (ri % (cut secret).length) 0 →
        (store.set ((cut secret).getD (ri % (cut secret).length) 0) newl).getD j [] =
          store.getD j [] := by
    intro newl j hj
    rcases getD_set_cases store ((cut secret).getD (ri % (cut secret).length) 0) newl j with
      hc | ⟨hje, _⟩
    · exact hc
    · exact absurd hje hj
  by_cases hd2 : dimension = 2
  · subst hd2
    rw [get_secret_splitter_dim2 store cut secret ri σ rest hne]
    refine ⟨_, rfl, List.Perm.refl _, ?_, hframe _⟩
    intro hmem
    exact ((hnd.mem_erase_iff).mp hmem).1 rfl
  · rw [get_secret_splitter_cons_ne2 store cut secret dimension ri σ rest hne hd2]
    rcases hflg : find_largest_general_position_subset
        ((store.getD ((cut secret).getD (ri % (cut secret).length) 0) []).erase secret)
        secret σ with ⟨res, shuffled⟩
    have hsh : shuffled = applyPerm σ
        ((store.getD ((cut secret).getD (ri % (cut secret).length) 0) []).erase secret) := by
      have h2 := flgps_snd
        ((store.getD ((cut secret).getD (ri % (cut secret).length) 0) []).erase secret)
        secret σ
      rw [hflg] at h2
      exact h2
    have hperm : shuffled.Perm
        ((store.getD ((cut secret).getD (ri % (cut secret).length) 0) []).erase secret) := by
      rw [hsh]
      exact applyPerm_perm σ _
    have hnotmem : secret ∉ shuffled := by
      intro hmem
      exact ((hnd.mem_erase_iff).mp (hperm.mem_iff.mp hmem)).1 rfl
    cases res with
    | ok subset =>
      dsimp only []
      by_cases hrk : dimension ≤ matRank subset
      · rw [if_pos hrk]
        exact ⟨shuffled, rfl, hperm, hnotmem, hframe _⟩
      · exact absurd ⟨hd2, subset, shuffled, hflg, by omega⟩ hnr
    | exn e =>
      exact ⟨shuffled, rfl, hperm, hnotmem, hframe _⟩
    | fuelOut =>
      exact ⟨shuffled, rfl, hperm, hnotmem, hframe _⟩

/-- C10 witness: a concrete `dimension = 2` selection over a one-entry store
holding the secret: the entry loses the secret and nothing else changes. -/
theorem claim_C10_store_mutation_witness :
    ∃ newl, (get_secret_splitter ([[![0,0,1], ![0,1,0]]] : List (List (Vec 2 3)))
        (fun v => [0]) ![0,0,1] 2 [(0, [])]).2 =
        ([[![0,0,1], ![0,1,0]]] : List (List (Vec 2 3))).set 0 newl ∧
      newl.Perm ((([[![0,0,1], ![0,1,0]]] : List (List (Vec 2 3))).getD 0 []).erase
        ![0,0,1]) ∧
      ![0,0,1] ∉ newl ∧
      ∀ j, j ≠ 0 →
        (([[![0,0,1], ![0,1,0]]] : List (List (Vec 2 3))).set 0 newl).getD j [] =
          ([[![0,0,1], ![0,1,0]]] : List (List (Vec 2 3))).getD j [] :=
  claim_C10_store_mutation [[![0,0,1], ![0,1,0]]] (fun v => [0]) ![0,0,1] 2 0 [] []
    (by decide) (by decide) (fun hcon => hcon.1 rfl)

end PyThresh
